import Mathlib

/-!
# Verification of the `agb-hashmap` Robin Hood hash table

This file gives a shallow embedding of the `agb-hashmap` crate
(`src/agb-hashmap/src/lib.rs`) and proves the specification claims about it.

The crate's front end (`HashMap` in `lib.rs`) is translated directly from the
source.  The backing storage (`node.rs` / `node_storage.rs`, declared in
`lib.rs` via `mod node; mod node_storage;` but not part of the provided
sources) is modelled from the specification's description of the backing
storage: Robin Hood probing with early termination, insertion with
displacement, removal with backward shift, and full-table rebuild on resize
(spec §3, §4.1, §4.2).

Design of the embedding:
* Keys are compared with an explicit boolean relation `keq : K → K → Bool`
  (Rust `Eq` is an equivalence, not identity, so `keq`-equal keys may be
  distinct Lean values — this is what makes the "stored key identity"
  observable).  The hash function is an abstract `hash : K → Nat`, consumed
  as a black box exactly as the spec treats the hasher collaborator.
* The backing array is a `List (Slot K V)`; positions are `Nat` indices taken
  modulo the list length, read with `List.getD` and written with `List.set`.
* Probe loops are written with explicit fuel (the backing size); under the
  load-factor invariant the fuel is never exhausted, which is proved, not
  assumed.
-/

set_option autoImplicit false

namespace AgbHashMap

/-- The storage unit of one table position (spec §3 "Slot"): empty, or an
owned key, an owned value and the distance to the initial bucket (DIB).
Modelled from the spec: the `Node` type of `node.rs` is not in the provided
sources. -/
inductive Slot (K V : Type) where
  | empty : Slot K V
  | occupied (key : K) (value : V) (dib : Nat) : Slot K V
deriving DecidableEq

namespace Slot

/-- `true` exactly on occupied slots (`Node::has_value`). -/
def hasValue {K V : Type} : Slot K V → Bool
  | .empty => false
  | .occupied _ _ _ => true

/-- The key-value pair of an occupied slot (`Node::key_value_ref`). -/
def keyValueRef {K V : Type} : Slot K V → Option (K × V)
  | .empty => none
  | .occupied k v _ => some (k, v)

/-- The slot is occupied and its DIB is at least `t`.  This is the condition
probed along a Robin Hood path. -/
def isOccWithDibGe {K V : Type} : Slot K V → Nat → Prop
  | .empty, _ => False
  | .occupied _ _ d, t => t ≤ d

instance instDecIsOccWithDibGe {K V : Type} :
    (s : Slot K V) → (t : Nat) → Decidable (s.isOccWithDibGe t)
  | .empty, _ => isFalse (fun h => h)
  | .occupied _ _ d, t => Nat.decLe t d

end Slot

/-- The occupied entries of the backing array, in position order.  This is
the sequence the iterators yield (spec §4.5). -/
def entryList {K V : Type} (l : List (Slot K V)) : List (K × V) :=
  l.filterMap fun s =>
    match s with
    | .empty => none
    | .occupied k v _ => some (k, v)

section Ops

variable {K V : Type} (keq : K → K → Bool) (hash : K → Nat)

/-- Modelled from the spec (§4.2 "Locate"): compute the ideal bucket
`hash mod capacity`, probe linearly with wrap-around; stop with a hit on a
key match, and stop with a miss on an empty slot or on an occupied slot whose
own DIB is smaller than the current probe distance.  `node_storage.rs` is not
in the provided sources.  `b` is the ideal bucket, `t` the current probe
distance. -/
def locateGo (l : List (Slot K V)) (key : K) (b : Nat) : Nat → Nat → Option Nat
  | _, 0 => none
  | t, fuel + 1 =>
    match l.getD ((b + t) % l.length) Slot.empty with
    | .empty => none
    | .occupied k _ d =>
      if keq k key then some ((b + t) % l.length)
      else if d < t then none
      else locateGo l key b (t + 1) fuel

/-- Modelled from the spec (§4.2 "Insert-new"): start at the ideal bucket
with DIB 0; on an empty slot place the travelling entry; on an occupied slot
whose DIB is smaller than the travelling DIB swap the travelling entry with
the resident (the resident continues the walk from the next slot); otherwise
advance.  Returns the updated array and the position at which the *original*
key was placed (`res` records it once placed).  The fuel (one backing size)
is exhausted only if the table has no empty slot, which the load-factor
policy rules out; in that unreachable case the array is returned unchanged.
-/
def insertNewGo (l : List (Slot K V)) (key : K) (value : V) :
    Nat → Nat → Option Nat → Nat → List (Slot K V) × Nat
  | _, q, res, 0 => (l, res.getD q)
  | d, q, res, fuel + 1 =>
    match l.getD q Slot.empty with
    | .empty => (l.set q (.occupied key value d), res.getD q)
    | .occupied k2 v2 d2 =>
      if d2 < d then
        insertNewGo (l.set q (.occupied key value d)) k2 v2 (d2 + 1)
          ((q + 1) % l.length) (some (res.getD q)) fuel
      else
        insertNewGo l key value (d + 1) ((q + 1) % l.length) res fuel

/-- Modelled from the spec (§4.2 "Remove-at", backward shift): starting from
the emptied gap `g`, walk forward; each subsequent occupied slot with a
positive DIB moves one slot backward with its DIB decremented; stop at the
first empty slot or occupied slot with DIB 0. -/
def backShiftGo (l : List (Slot K V)) (g : Nat) : Nat → List (Slot K V)
  | 0 => l
  | fuel + 1 =>
    match l.getD ((g + 1) % l.length) Slot.empty with
    | .empty => l
    | .occupied k v d =>
      match d with
      | 0 => l
      | e + 1 =>
        backShiftGo
          ((l.set g (.occupied k v e)).set ((g + 1) % l.length) .empty)
          ((g + 1) % l.length) fuel

/-- Modelled from the spec (§4.3 insert on a present key): the value is
replaced in place, the stored key is *not* replaced (the incoming key is
dropped), and the old value is returned.  The empty branch is unreachable:
locate only yields occupied positions. -/
def replaceAtLocation (l : List (Slot K V)) (p : Nat) (_incomingKey : K)
    (value : V) : List (Slot K V) × V :=
  match l.getD p Slot.empty with
  | .empty => (l, value)
  | .occupied k0 v0 d0 => (l.set p (.occupied k0 value d0), v0)

/-- Backing storage (spec §3): the slot array plus the count of occupied
slots.  Modelled from the spec: `node_storage.rs` is not in the provided
sources. -/
structure NodeStorage (K V : Type) where
  nodes : List (Slot K V)
  numberOfItems : Nat
deriving DecidableEq

/-- `number_before_resize` from `lib.rs`: the 85% load threshold. -/
def numberBeforeResize (capacity : Nat) : Nat :=
  capacity * 85 / 100

namespace NodeStorage

variable {K V : Type}

/-- The size of the backing array (`NodeStorage::backing_vec_size`). -/
def backingVecSize (s : NodeStorage K V) : Nat := s.nodes.length

/-- The number of stored elements (`NodeStorage::len`). -/
def len (s : NodeStorage K V) : Nat := s.numberOfItems

/-- Modelled from the spec: the storage's capacity is the number of elements
the table can hold before resizing, i.e. the 85% threshold of the backing
size (spec §4.2: the resize is "triggered by Map before an insertion would
push `count` above `floor(capacity * 0.85)`", and `HashMap::insert` compares
`self.nodes.capacity() <= self.len()`). -/
def capacity (s : NodeStorage K V) : Nat :=
  numberBeforeResize s.backingVecSize

/-- An empty storage of the given backing size
(`NodeStorage::with_size_in`). -/
def withSize (size : Nat) : NodeStorage K V :=
  ⟨List.replicate size Slot.empty, 0⟩

/-- Locate a key (spec §4.2 "Locate"), given its hash. -/
def location (keq : K → K → Bool) (s : NodeStorage K V) (key : K)
    (hashv : Nat) : Option Nat :=
  locateGo keq s.nodes key (hashv % s.nodes.length) 0 s.nodes.length

/-- Insert a key known to be absent (spec §4.2 "Insert-new"); increments the
count and returns the position at which the key was placed. -/
def insertNew (s : NodeStorage K V) (key : K) (value : V) (hashv : Nat) :
    NodeStorage K V × Nat :=
  let r := insertNewGo s.nodes key value 0 (hashv % s.nodes.length) none
    s.nodes.length
  (⟨r.1, s.numberOfItems + 1⟩, r.2)

/-- Replace the value at a located position, keeping the stored key
(spec §4.3); returns the old value. -/
def replaceAt (s : NodeStorage K V) (p : Nat) (key : K) (value : V) :
    NodeStorage K V × V :=
  let r := replaceAtLocation s.nodes p key value
  (⟨r.1, s.numberOfItems⟩, r.2)

/-- Remove the entry at a located position (spec §4.2 "Remove-at"): take the
key and value out, empty the slot, backward-shift the following cluster and
decrement the count.  `none` is unreachable: locate only yields occupied
positions. -/
def removeFromLocation (s : NodeStorage K V) (p : Nat) :
    Option (NodeStorage K V × V) :=
  match s.nodes.getD p Slot.empty with
  | .empty => none
  | .occupied _ v _ =>
    some (⟨backShiftGo (s.nodes.set p Slot.empty) p s.nodes.length,
      s.numberOfItems - 1⟩, v)

/-- The slot at a position (`NodeStorage::node_at`). -/
def nodeAt (s : NodeStorage K V) (p : Nat) : Slot K V :=
  s.nodes.getD p Slot.empty

/-- Full-table rebuild into a fresh array (spec §4.2 "Resize"): every
occupied entry is re-inserted into an empty array of the new size with the
Insert-new walk against fresh hashes. -/
def resizedTo (hash : K → Nat) (s : NodeStorage K V)
    (newSize : Nat) : NodeStorage K V :=
  (entryList s.nodes).foldl
    (fun acc kv => (insertNew acc kv.1 kv.2 (hash kv.1)).1)
    (withSize newSize)

end NodeStorage

/-- The hash map front end (`HashMap` in `lib.rs`).  The hasher field of the
Rust struct is a zero-sized `BuildHasherDefault<FxHasher>`; the hash function
is the section parameter `hash`. -/
structure HashMap (K V : Type) where
  nodes : NodeStorage K V
deriving DecidableEq

namespace HashMap

/-- `HashMap::with_size` (`lib.rs` lines 159-161, 175-180). -/
def withSize (size : Nat) : HashMap K V :=
  ⟨NodeStorage.withSize size⟩

/-- `HashMap::new` (`lib.rs` lines 153-155, 184-186): backing size 16. -/
def new : HashMap K V := withSize 16

/-- `HashMap::len` (`lib.rs` lines 212-214). -/
def len (m : HashMap K V) : Nat := m.nodes.len

/-- `HashMap::capacity` (`lib.rs` lines 218-220). -/
def capacity (m : HashMap K V) : Nat := m.nodes.capacity

/-- The backing array size of a map. -/
def backingVecSize (m : HashMap K V) : Nat := m.nodes.backingVecSize

/-- `HashMap::is_empty` (`lib.rs` lines 267-269). -/
def isEmpty (m : HashMap K V) : Bool := m.len == 0

/-- `HashMap::resize` (`lib.rs` lines 271-281): a no-op when the new size
equals the current one, otherwise a full rebuild.  The callers only ever pass
twice the current size, so the assert for a shrinking resize never fires; a
shrinking argument is modelled as the no-op the assert forbids. -/
def resize (m : HashMap K V) (newSize : Nat) : HashMap K V :=
  if m.nodes.backingVecSize < newSize then
    ⟨m.nodes.resizedTo hash newSize⟩
  else
    m

/-- `HashMap::insert` (`lib.rs` lines 301-315): replace in place when the key
is located, otherwise grow (doubling the backing size) when the count has
reached the threshold and insert fresh.  Returns the previous value. -/
def insert (m : HashMap K V) (key : K) (value : V) :
    Option V × HashMap K V :=
  let hashv := hash key
  match m.nodes.location keq key hashv with
  | some loc =>
    let r := m.nodes.replaceAt loc key value
    (some r.2, ⟨r.1⟩)
  | none =>
    let m' :=
      if m.nodes.capacity ≤ m.len then
        resize hash m (m.nodes.backingVecSize * 2)
      else m
    (none, ⟨(m'.nodes.insertNew key value hashv).1⟩)

/-- `HashMap::contains_key` (`lib.rs` lines 335-342). -/
def containsKey (m : HashMap K V) (key : K) : Bool :=
  (m.nodes.location keq key (hash key)).isSome

/-- `HashMap::get_key_value` (`lib.rs` lines 345-355). -/
def getKeyValue (m : HashMap K V) (key : K) : Option (K × V) :=
  match m.nodes.location keq key (hash key) with
  | some loc => (m.nodes.nodeAt loc).keyValueRef
  | none => none

/-- `HashMap::get` (`lib.rs` lines 369-375). -/
def get (m : HashMap K V) (key : K) : Option V :=
  (m.getKeyValue keq hash key).map Prod.snd

/-- `HashMap::remove` (`lib.rs` lines 419-429): locate, then remove at the
located position; absent keys leave the map untouched and return `None`. -/
def remove (m : HashMap K V) (key : K) : Option V × HashMap K V :=
  match m.nodes.location keq key (hash key) with
  | some loc =>
    match m.nodes.removeFromLocation loc with
    | some r => (some r.2, ⟨r.1⟩)
    | none => (none, m)
  | none => (none, m)

/-- `Index::index` (`lib.rs` lines 778-788): `get` with a panic on absence
(`expect("no entry found for key")`), modelled as `Except.error ()`. -/
def indexGet (m : HashMap K V) (key : K) : Except Unit V :=
  match m.get keq hash key with
  | some v => Except.ok v
  | none => Except.error ()

end HashMap

/-- The cursor of the borrowing iterator `Iter` (`lib.rs` lines 451-455):
the scan position `at` and the count of items already yielded. -/
structure IterState where
  atIdx : Nat
  numFound : Nat
deriving DecidableEq

/-- The scan loop of `Iter::next` (`lib.rs` lines 460-474): scan positions in
increasing order, skip empty slots, yield the first occupied slot.  The fuel
is `backing size - at`, so fuel 0 is exactly the `at >= backing_vec_size`
exit. -/
def iterNextGo (l : List (Slot K V)) :
    Nat → Nat → Nat → Option ((K × V) × IterState)
  | _, _, 0 => none
  | atIdx, numFound, fuel + 1 =>
    match l.getD atIdx Slot.empty with
    | .empty => iterNextGo l (atIdx + 1) numFound fuel
    | .occupied k v _ => some ((k, v), ⟨atIdx + 1, numFound + 1⟩)

namespace HashMap

/-- `Iter::next` for a borrowing iterator over `m`. -/
def iterNext (m : HashMap K V) (it : IterState) :
    Option ((K × V) × IterState) :=
  iterNextGo m.nodes.nodes it.atIdx it.numFound
    (m.nodes.nodes.length - it.atIdx)

/-- `HashMap::iter` (`lib.rs` lines 244-250): a fresh cursor. -/
def iterStart : IterState := ⟨0, 0⟩

/-- `Iter::size_hint` (`lib.rs` lines 476-481). -/
def iterSizeHint (m : HashMap K V) (it : IterState) : Nat × Option Nat :=
  (m.len - it.numFound, some (m.len - it.numFound))

/-- Advance a borrowing iterator `n` times (an exhausted iterator keeps its
state, as `Iter::next` returns `None` without mutating). -/
def iterAdvance (m : HashMap K V) (it : IterState) : Nat → IterState
  | 0 => it
  | n + 1 =>
    match m.iterNext it with
    | none => it
    | some (_, it') => iterAdvance m it' n

/-- The items a borrowing iterator will still yield from state `it`.  The
fuel bounds the number of `next` calls; `backing size - at` suffices because
every yield advances the position. -/
def iterForceGo (m : HashMap K V) : IterState → Nat → List (K × V)
  | _, 0 => []
  | it, fuel + 1 =>
    match m.iterNext it with
    | none => []
    | some (kv, it') => kv :: iterForceGo m it' fuel

/-- All items yielded by `m.iter()` run to exhaustion. -/
def iterYields (m : HashMap K V) : List (K × V) :=
  iterForceGo m iterStart m.nodes.nodes.length

end HashMap

/-- The state of the owning iterator `IterOwned` (`lib.rs` lines 501-505):
the owned map, the scan position and the count already yielded. -/
structure IterOwnedState (K V : Type) where
  map : HashMap K V
  atIdx : Nat
  numFound : Nat
deriving DecidableEq

/-- The scan loop of `IterOwned::next` (`lib.rs` lines 510-524): as the
borrowing scan, but each yielded entry is taken out of its slot
(`take_key_value` leaves the slot empty) while `number_of_items` stays
untouched. -/
def iterOwnedNextGo (l : List (Slot K V)) :
    Nat → Nat → Nat → Option ((K × V) × (List (Slot K V) × Nat × Nat))
  | _, _, 0 => none
  | atIdx, numFound, fuel + 1 =>
    match l.getD atIdx Slot.empty with
    | .empty => iterOwnedNextGo l (atIdx + 1) numFound fuel
    | .occupied k v _ =>
      some ((k, v), (l.set atIdx Slot.empty, atIdx + 1, numFound + 1))

namespace HashMap

/-- `IterOwned::next`. -/
def iterOwnedNext (st : IterOwnedState K V) :
    Option ((K × V) × IterOwnedState K V) :=
  (iterOwnedNextGo st.map.nodes.nodes st.atIdx st.numFound
      (st.map.nodes.nodes.length - st.atIdx)).map
    fun r => (r.1, ⟨⟨⟨r.2.1, st.map.nodes.numberOfItems⟩⟩, r.2.2.1, r.2.2.2⟩)

/-- `HashMap::into_iter` (`lib.rs` lines 538-549). -/
def iterOwnedStart (m : HashMap K V) : IterOwnedState K V := ⟨m, 0, 0⟩

/-- `IterOwned::size_hint` (`lib.rs` lines 526-531). -/
def iterOwnedSizeHint (st : IterOwnedState K V) : Nat × Option Nat :=
  (st.map.len - st.numFound, some (st.map.len - st.numFound))

/-- Advance an owning iterator `n` times. -/
def iterOwnedAdvance : IterOwnedState K V → Nat → IterOwnedState K V
  | st, 0 => st
  | st, n + 1 =>
    match iterOwnedNext st with
    | none => st
    | some (_, st') => iterOwnedAdvance st' n

/-- The items an owning iterator will still yield from state `st`. -/
def iterOwnedForceGo : IterOwnedState K V → Nat → List (K × V)
  | _, 0 => []
  | st, fuel + 1 =>
    match iterOwnedNext st with
    | none => []
    | some (kv, st') => kv :: iterOwnedForceGo st' fuel

end HashMap

/-- The `Entry` enum (`lib.rs` lines 648-653): a vacant view holding the key,
or an occupied view holding the key and the located position.  The exclusive
borrow of the map is passed to the terminal operations explicitly. -/
inductive Entry (K V : Type) where
  | occupiedE (key : K) (location : Nat) : Entry K V
  | vacantE (key : K) : Entry K V
deriving DecidableEq

/-- An event on the hash/locate interface between `HashMap` and its backing
storage: a call of `HashMap::hash` or of `NodeStorage::location`.  Used to
state how many lookups an operation performs. -/
inductive HmEvent where
  | hashKey : HmEvent
  | locate : HmEvent
deriving DecidableEq

namespace HashMap

/-- `HashMap::entry` (`lib.rs` lines 740-753): one hash, one locate, and the
entry view. -/
def entry (m : HashMap K V) (key : K) : Entry K V :=
  let hashv := hash key
  match m.nodes.location keq key hashv with
  | some loc => .occupiedE key loc
  | none => .vacantE key

/-- `HashMap::entry` together with the hash/locate events it performs
(`lib.rs` line 741 `self.hash(&key)`, line 742 `self.nodes.location`). -/
def entryTr (m : HashMap K V) (key : K) : Entry K V × List HmEvent :=
  (m.entry keq hash key, [HmEvent.hashKey, HmEvent.locate])

/-- `HashMap::insert_and_get` (`lib.rs` lines 317-332): like `insert`, but
returns (a mutable reference to) the value now stored for the key, read back
through the location. -/
def insertAndGet (m : HashMap K V) (key : K) (value : V) :
    Option V × HashMap K V :=
  let hashv := hash key
  match m.nodes.location keq key hashv with
  | some loc =>
    let r := m.nodes.replaceAt loc key value
    let m' : HashMap K V := ⟨r.1⟩
    ((m'.nodes.nodeAt loc).keyValueRef.map Prod.snd, m')
  | none =>
    let m' :=
      if m.nodes.capacity ≤ m.len then
        resize hash m (m.nodes.backingVecSize * 2)
      else m
    let r := m'.nodes.insertNew key value hashv
    let m'' : HashMap K V := ⟨r.1⟩
    (((m''.nodes.nodeAt r.2)).keyValueRef.map Prod.snd, m'')

/-- `HashMap::insert_and_get` together with the hash/locate events it
performs (`lib.rs` line 318 `self.hash(&key)`, line 320
`self.nodes.location`). -/
def insertAndGetTr (m : HashMap K V) (key : K) (value : V) :
    (Option V × HashMap K V) × List HmEvent :=
  (m.insertAndGet keq hash key value, [HmEvent.hashKey, HmEvent.locate])

end HashMap

namespace Entry

/-- `Entry::or_insert` (`lib.rs` lines 661-666): on an occupied entry,
`OccupiedEntry::into_mut` reads the value through the stored location
(`lib.rs` lines 595-601); on a vacant entry, `VacantEntry::insert` calls
`HashMap::insert_and_get` (`lib.rs` lines 635-640). -/
def orInsert (m : HashMap K V) (e : Entry K V) (value : V) :
    Option V × HashMap K V :=
  match e with
  | .occupiedE _ loc => ((m.nodes.nodeAt loc).keyValueRef.map Prod.snd, m)
  | .vacantE k => m.insertAndGet keq hash k value

/-- `Entry::or_insert` together with the hash/locate events it performs: the
occupied arm only dereferences the stored location, the vacant arm runs
`insert_and_get`, which hashes and locates again. -/
def orInsertTr (m : HashMap K V) (e : Entry K V) (value : V) :
    (Option V × HashMap K V) × List HmEvent :=
  match e with
  | .occupiedE _ loc =>
    (((m.nodes.nodeAt loc).keyValueRef.map Prod.snd, m), [])
  | .vacantE k => m.insertAndGetTr keq hash k value

end Entry

namespace HashMap

/-- `PartialEq::eq` for maps (`lib.rs` lines 790-803): equal lengths, and
every pair yielded by `self.iter()` must be mapped by `other.get` to an equal
value (`veq` is the `PartialEq` instance of `V`). -/
def beqMaps (veq : V → V → Bool) (m1 m2 : HashMap K V) : Bool :=
  if m1.len ≠ m2.len then false
  else
    m1.iterYields.all fun kv =>
      match m2.get keq hash kv.1 with
      | some v' => veq kv.2 v'
      | none => false

/-- The size-selection loop of `HashMap::with_capacity_in` (`lib.rs` lines
196-208): the first `i` in `0..32` whose power-of-two size has a load
threshold strictly above the requested capacity; `none` models the panic when
no size fits. -/
def withCapacitySizeGo (capacity : Nat) (i : Nat) : Option Nat :=
  if h : i < 32 then
    if numberBeforeResize (2 ^ i) > capacity then some (2 ^ i)
    else withCapacitySizeGo capacity (i + 1)
  else none
termination_by 32 - i
decreasing_by omega

/-- `HashMap::with_capacity` (`lib.rs` lines 166-168, 196-208). -/
def withCapacity (capacity : Nat) : Option (HashMap K V) :=
  (withCapacitySizeGo capacity 0).map fun s => (withSize s : HashMap K V)

end HashMap

/-- A sequence of insertions, applied left to right (used to state the
sequence claims). -/
def insertAll (m : HashMap K V) (l : List (K × V)) : HashMap K V :=
  l.foldl (fun acc kv => (HashMap.insert keq hash acc kv.1 kv.2).2) m

/-- A public mutating command, for claims quantifying over arbitrary
insert/remove sequences. -/
inductive MapOp (K V : Type) where
  | ins (key : K) (value : V) : MapOp K V
  | rem (key : K) : MapOp K V

/-- Run one command. -/
def applyOp (m : HashMap K V) : MapOp K V → HashMap K V
  | .ins k v => (HashMap.insert keq hash m k v).2
  | .rem k => (HashMap.remove keq hash m k).2

/-- Run a command sequence left to right. -/
def applyOps (m : HashMap K V) (ops : List (MapOp K V)) : HashMap K V :=
  ops.foldl (applyOp keq hash) m

end Ops

/-! Concrete key instantiations used to evaluate the theorems on closed
inputs.  `natKeq` is ordinary equality of `Nat` keys; `pairKeq` compares
only the first component, so two `pairKeq`-equal keys can differ in their
second component — an identity tag that makes "which key object is stored"
observable, as Rust `Eq` allows. -/

def natKeq : Nat → Nat → Bool := fun a b => a == b

def natHash : Nat → Nat := fun a => a

def natVeq : Nat → Nat → Bool := fun a b => a == b

def pairKeq : Nat × Nat → Nat × Nat → Bool := fun a b => a.1 == b.1

def pairHash : Nat × Nat → Nat := fun a => a.1

/-! Small concrete maps used to evaluate the theorems on closed inputs. -/

def wm0 : HashMap Nat Nat := HashMap.withSize 4

def wm1 : HashMap Nat Nat := (HashMap.insert natKeq natHash wm0 1 10).2

def wm2 : HashMap Nat Nat := (HashMap.insert natKeq natHash wm1 2 20).2

def wm3 : HashMap Nat Nat := (HashMap.insert natKeq natHash wm2 5 50).2

def pm1 : HashMap (Nat × Nat) Nat :=
  (HashMap.insert pairKeq pairHash (HashMap.withSize 4) (1, 0) 10).2

section Invariants

variable {K V : Type} (keq : K → K → Bool) (hash : K → Nat)

/-- The Robin Hood path property of one slot: an occupied slot's DIB is below
the backing size, the slot sits exactly DIB steps past its ideal bucket, and
every earlier step of its probe path holds an occupied slot whose own DIB is
at least the step index (spec §3 slot invariant and §4.2). -/
def slotPathOkAux (l : List (Slot K V)) (p : Nat) : Slot K V → Prop
  | .empty => True
  | .occupied k _ d =>
    d < l.length ∧ p = (hash k + d) % l.length ∧
      ∀ t, t < d →
        (l.getD ((hash k + t) % l.length) Slot.empty).isOccWithDibGe t

instance instDecSlotPathOkAux (l : List (Slot K V)) (p : Nat) :
    (s : Slot K V) → Decidable (slotPathOkAux hash l p s)
  | .empty => isTrue trivial
  | .occupied _ _ _ => inferInstanceAs (Decidable (_ ∧ _ ∧ _))

/-- The path property of the slot at position `p`. -/
def slotPathOk (l : List (Slot K V)) (p : Nat) : Prop :=
  slotPathOkAux hash l p (l.getD p Slot.empty)

instance instDecSlotPathOk (l : List (Slot K V)) (p : Nat) :
    Decidable (slotPathOk hash l p) :=
  inferInstanceAs (Decidable (slotPathOkAux hash l p (l.getD p Slot.empty)))

/-- The hashing invariant of the backing array (spec §2: "this is where the
hashing invariant lives"). -/
def pathInv (l : List (Slot K V)) : Prop :=
  ∀ p, p < l.length → slotPathOk hash l p

instance instDecPathInv (l : List (Slot K V)) : Decidable (pathInv hash l) :=
  inferInstanceAs (Decidable (∀ p, p < l.length → slotPathOk hash l p))

/-- No two stored entries have equal keys. -/
def keyNodup (l : List (Slot K V)) : Prop :=
  List.Pairwise (fun a b => keq a.1 b.1 = false) (entryList l)

instance instDecKeyNodup (l : List (Slot K V)) :
    Decidable (keyNodup keq l) :=
  inferInstanceAs
    (Decidable
      (List.Pairwise (fun (a b : K × V) => keq a.1 b.1 = false)
        (entryList l)))

/-- The full backing-storage invariant: the hashing invariant, key
uniqueness, an accurate occupied count, the load-factor bound (spec §3:
`count ≤ floor(capacity * 0.85)` between operations) and a non-empty backing
array. -/
def StorageInv (s : NodeStorage K V) : Prop :=
  pathInv hash s.nodes ∧ keyNodup keq s.nodes ∧
    s.numberOfItems = (entryList s.nodes).length ∧
    s.numberOfItems ≤ numberBeforeResize s.nodes.length ∧
    0 < s.nodes.length

instance instDecStorageInv (s : NodeStorage K V) :
    Decidable (StorageInv keq hash s) :=
  inferInstanceAs (Decidable (_ ∧ _ ∧ _ ∧ _ ∧ _))

/-- The map invariant. -/
def MapInv (m : HashMap K V) : Prop :=
  StorageInv keq hash m.nodes

instance instDecMapInv (m : HashMap K V) : Decidable (MapInv keq hash m) :=
  inferInstanceAs (Decidable (StorageInv keq hash m.nodes))

/-- The contract required of the key type (spec §6): `keq` is an equivalence
and the hash function respects it (`k1 == k2 => hash(k1) == hash(k2)`). -/
structure KeyHyps (keq : K → K → Bool) (hash : K → Nat) : Prop where
  refl : ∀ k, keq k k = true
  symm : ∀ a b, keq a b = true → keq b a = true
  trans : ∀ a b c, keq a b = true → keq b c = true → keq a c = true
  hashCompat : ∀ a b, keq a b = true → hash a = hash b

end Invariants

/-! ## Helper lemmas: positional access and modular probing -/

section Helpers

variable {K V : Type}

theorem getD_eq_getElem {l : List (Slot K V)} {p : Nat} (h : p < l.length) :
    l.getD p Slot.empty = l[p] := by
  simp [List.getD_eq_getElem?_getD, List.getElem?_eq_getElem h]

theorem getD_of_le_length {l : List (Slot K V)} {p : Nat}
    (h : l.length ≤ p) : l.getD p Slot.empty = Slot.empty := by
  simp [List.getD_eq_getElem?_getD, List.getElem?_eq_none h]

theorem lt_length_of_getD_occupied {l : List (Slot K V)} {p : Nat}
    {k : K} {v : V} {d : Nat} (h : l.getD p Slot.empty = .occupied k v d) :
    p < l.length := by
  by_contra hlt
  rw [getD_of_le_length (Nat.le_of_not_lt hlt)] at h
  exact Slot.noConfusion h

theorem getD_set_self {l : List (Slot K V)} {p : Nat} (h : p < l.length)
    (x : Slot K V) : (l.set p x).getD p Slot.empty = x := by
  rw [getD_eq_getElem (by simpa using h)]
  exact List.getElem_set_self (by simpa using h)

theorem getD_set_ne {l : List (Slot K V)} {p q : Nat} (h : p ≠ q)
    (x : Slot K V) : (l.set p x).getD q Slot.empty = l.getD q Slot.empty := by
  simp [List.getD_eq_getElem?_getD, List.getElem?_set_ne h]

theorem probe_inj {n s t a : Nat} (hs : s < n) (ht : t < n)
    (h : (a + s) % n = (a + t) % n) : s = t := by
  have h2 : s ≡ t [MOD n] := Nat.ModEq.add_left_cancel' a h
  have h3 : s % n = t % n := h2
  rwa [Nat.mod_eq_of_lt hs, Nat.mod_eq_of_lt ht] at h3

theorem probe_add_ne_self {n q j : Nat} (hq : q < n) (hj : 0 < j)
    (hjn : j < n) : (q + j) % n ≠ q := by
  intro h
  have h0 : (q + j) % n = (q + 0) % n := by
    simpa [Nat.mod_eq_of_lt hq] using h
  have h2 : j ≡ 0 [MOD n] := Nat.ModEq.add_left_cancel' q h0
  have h3 : j % n = 0 % n := h2
  rw [Nat.mod_eq_of_lt hjn, Nat.zero_mod] at h3
  omega

/-! ## Helper lemmas: `entryList` -/

@[simp] theorem entryList_nil : entryList ([] : List (Slot K V)) = [] := rfl

@[simp] theorem entryList_cons_empty {t : List (Slot K V)} :
    entryList (Slot.empty :: t) = entryList t := by
  simp [entryList, List.filterMap_cons]

@[simp] theorem entryList_cons_occupied {t : List (Slot K V)} {k : K} {v : V}
    {d : Nat} :
    entryList (Slot.occupied k v d :: t) = (k, v) :: entryList t := by
  simp [entryList, List.filterMap_cons]

@[simp] theorem entryList_replicate {n : Nat} :
    entryList (List.replicate n (Slot.empty : Slot K V)) = [] := by
  induction n with
  | zero => rfl
  | succ n ih => rw [List.replicate_succ, entryList_cons_empty, ih]

theorem mem_entryList {l : List (Slot K V)} {k : K} {v : V} :
    (k, v) ∈ entryList l ↔
      ∃ p d, l.getD p Slot.empty = Slot.occupied k v d := by
  constructor
  · intro h
    obtain ⟨s, hs, hf⟩ := List.mem_filterMap.1 h
    obtain ⟨p, hp, hps⟩ := List.mem_iff_getElem.1 hs
    cases s with
    | empty => exact absurd hf (by simp)
    | occupied k0 v0 d0 =>
      obtain ⟨hk, hv⟩ : k0 = k ∧ v0 = v := by
        simpa using hf
      subst hk hv
      exact ⟨p, d0, by rw [getD_eq_getElem hp, hps]⟩
  · rintro ⟨p, d, hpd⟩
    refine List.mem_filterMap.2 ⟨Slot.occupied k v d, ?_, by simp⟩
    have hp := lt_length_of_getD_occupied hpd
    rw [getD_eq_getElem hp] at hpd
    exact hpd ▸ List.getElem_mem hp

/-- Placing an entry into an empty slot adds its pair to the entry list, up
to permutation. -/
theorem entryList_set_occupied {l : List (Slot K V)} {p : Nat}
    (hp : p < l.length) (he : l.getD p Slot.empty = Slot.empty)
    (k : K) (v : V) (d : Nat) :
    List.Perm (entryList (l.set p (Slot.occupied k v d))) ((k, v) :: entryList l) := by
  induction l generalizing p with
  | nil => simp at hp
  | cons x t ih =>
    cases p with
    | zero =>
      simp only [List.getD_cons_zero] at he
      subst he
      simp
    | succ p =>
      simp only [List.getD_cons_succ] at he
      have hp' : p < t.length := by simpa using hp
      cases x with
      | empty =>
        simpa using ih hp' he
      | occupied k0 v0 d0 =>
        simp only [List.set_cons_succ, entryList_cons_occupied]
        exact ((ih hp' he).cons (k0, v0)).trans (List.Perm.swap _ _ _)

/-- Emptying an occupied slot removes its pair from the entry list, up to
permutation. -/
theorem entryList_set_empty {l : List (Slot K V)} {p : Nat} {k : K} {v : V}
    {d : Nat} (hpd : l.getD p Slot.empty = Slot.occupied k v d) :
    List.Perm (entryList l) ((k, v) :: entryList (l.set p Slot.empty)) := by
  induction l generalizing p with
  | nil => exact absurd hpd (by simp)
  | cons x t ih =>
    cases p with
    | zero =>
      simp only [List.getD_cons_zero] at hpd
      subst hpd
      simp
    | succ p =>
      simp only [List.getD_cons_succ] at hpd
      cases x with
      | empty =>
        simpa using ih hpd
      | occupied k0 v0 d0 =>
        simp only [List.set_cons_succ, entryList_cons_occupied]
        exact ((ih hpd).cons (k0, v0)).trans (List.Perm.swap _ _ _)

end Helpers

/-! ## Locate: soundness and completeness -/

section Locate

variable {K V : Type} {keq : K → K → Bool} {hash : K → Nat}

theorem locateGo_succ {l : List (Slot K V)} {key : K} {b t fuel : Nat} :
    locateGo keq l key b t (fuel + 1) =
      match l.getD ((b + t) % l.length) Slot.empty with
      | .empty => none
      | .occupied k _ d =>
        if keq k key then some ((b + t) % l.length)
        else if d < t then none
        else locateGo keq l key b (t + 1) fuel := rfl

theorem locateGo_step_empty {l : List (Slot K V)} {key : K} {b t fuel : Nat}
    (h : l.getD ((b + t) % l.length) Slot.empty = Slot.empty) :
    locateGo keq l key b t (fuel + 1) = none := by
  rw [locateGo_succ, h]

theorem locateGo_step_occupied {l : List (Slot K V)} {key : K}
    {b t fuel : Nat} {k' : K} {v' : V} {d' : Nat}
    (h : l.getD ((b + t) % l.length) Slot.empty = Slot.occupied k' v' d') :
    locateGo keq l key b t (fuel + 1) =
      if keq k' key then some ((b + t) % l.length)
      else if d' < t then none
      else locateGo keq l key b (t + 1) fuel := by
  rw [locateGo_succ, h]

/-- Soundness: a located position holds an occupied slot whose key matches
the query. -/
theorem locateGo_some {l : List (Slot K V)} {key : K} {b t fuel q : Nat}
    (h : locateGo keq l key b t fuel = some q) :
    ∃ k' v' d', l.getD q Slot.empty = Slot.occupied k' v' d' ∧
      keq k' key = true := by
  induction fuel generalizing t with
  | zero => exact absurd h (by simp [locateGo])
  | succ fuel ih =>
    cases hslot : l.getD ((b + t) % l.length) Slot.empty with
    | empty =>
      rw [locateGo_step_empty hslot] at h
      exact absurd h (by simp)
    | occupied k' v' d' =>
      rw [locateGo_step_occupied hslot] at h
      by_cases hk : keq k' key = true
      · rw [hk, if_pos rfl] at h
        obtain rfl : (b + t) % l.length = q := by simpa using h
        exact ⟨k', v', d', hslot, hk⟩
      · rw [Bool.eq_false_iff.2 hk] at h
        simp only [Bool.false_eq_true, if_false] at h
        by_cases hd : d' < t
        · rw [if_pos hd] at h; exact absurd h (by simp)
        · rw [if_neg hd] at h; exact ih h

/-- A located position is a valid index. -/
theorem locateGo_some_lt {l : List (Slot K V)} {key : K} {b t fuel q : Nat}
    (h : locateGo keq l key b t fuel = some q) : q < l.length := by
  obtain ⟨k', v', d', hslot, -⟩ := locateGo_some h
  exact lt_length_of_getD_occupied hslot

/-- Completeness of the probe: if some coherent occupied slot matches the
query key, the probe starting inside its path cannot miss. -/
theorem locateGo_isSome {l : List (Slot K V)} {key : K} {p : Nat}
    {k0 : K} {v0 : V} {d0 : Nat} (hinv : pathInv hash l)
    (hslot : l.getD p Slot.empty = Slot.occupied k0 v0 d0)
    (hkeq : keq k0 key = true) (hhash : hash k0 = hash key) :
    ∀ fuel t, t ≤ d0 → d0 - t < fuel →
      (locateGo keq l key (hash key % l.length) t fuel).isSome = true := by
  have hp : p < l.length := lt_length_of_getD_occupied hslot
  have hpath : slotPathOkAux hash l p (Slot.occupied k0 v0 d0) := by
    have := hinv p hp
    rw [slotPathOk, hslot] at this
    exact this
  obtain ⟨hd0, hpos, hsteps⟩ := hpath
  intro fuel
  induction fuel with
  | zero => intro t ht hfuel; omega
  | succ fuel ih =>
    intro t ht hfuel
    have hb : (hash key % l.length + t) % l.length =
        (hash k0 + t) % l.length := by
      rw [hhash, Nat.mod_add_mod]
    rcases Nat.lt_or_ge t d0 with htlt | htge
    · have hstep := hsteps t htlt
      cases hslot' : l.getD ((hash k0 + t) % l.length) Slot.empty with
      | empty =>
        rw [hslot'] at hstep
        exact absurd hstep (fun hh => hh)
      | occupied k1 v1 d1 =>
        rw [hslot'] at hstep
        have hd1 : t ≤ d1 := hstep
        rw [locateGo_step_occupied (hb ▸ hslot')]
        by_cases hk : keq k1 key = true
        · rw [hk, if_pos rfl]; rfl
        · rw [Bool.eq_false_iff.2 hk]
          simp only [Bool.false_eq_true, if_false, if_neg (by omega : ¬ d1 < t)]
          exact ih (t + 1) (by omega) (by omega)
    · have ht0 : t = d0 := by omega
      have hq : (hash key % l.length + t) % l.length = p := by
        rw [hb, ht0, ← hpos]
      rw [locateGo_step_occupied (hq ▸ hslot), hkeq, if_pos rfl]
      rfl

/-- The queries `k1` and `k2` are interchangeable for `keq` whenever
`keq k1 k2` holds (`keq` is an equivalence). -/
theorem keq_congr_right (hK : KeyHyps keq hash) {k1 k2 : K}
    (h : keq k1 k2 = true) (c : K) : keq c k1 = keq c k2 := by
  by_cases h1 : keq c k1 = true
  · rw [h1, Eq.symm (hK.trans c k1 k2 h1 h)]
  · by_cases h2 : keq c k2 = true
    · exact absurd (hK.trans c k2 k1 h2 (hK.symm _ _ h)) h1
    · rw [Bool.eq_false_iff.2 h1, Bool.eq_false_iff.2 h2]

/-- `keq`-equal queries probe identically. -/
theorem locateGo_congr (hK : KeyHyps keq hash) {l : List (Slot K V)}
    {k1 k2 : K} (h : keq k1 k2 = true) (t fuel : Nat) :
    locateGo keq l k1 (hash k1 % l.length) t fuel =
      locateGo keq l k2 (hash k2 % l.length) t fuel := by
  induction fuel generalizing t with
  | zero => rfl
  | succ fuel ih =>
    have hb : hash k1 = hash k2 := hK.hashCompat k1 k2 h
    cases hslot : l.getD ((hash k2 % l.length + t) % l.length)
      Slot.empty with
    | empty =>
      rw [locateGo_step_empty (hb ▸ hslot), locateGo_step_empty hslot]
    | occupied k' v' d' =>
      rw [locateGo_step_occupied (hb ▸ hslot),
        locateGo_step_occupied hslot, keq_congr_right hK h k', hb]
      by_cases hk : keq k' k2 = true
      · rw [hk]; rfl
      · rw [Bool.eq_false_iff.2 hk]
        simp only [Bool.false_eq_true, if_false]
        by_cases hd : d' < t
        · rw [if_pos hd, if_pos hd]
        · have ih' := ih (t + 1)
          rw [hb] at ih'
          rw [if_neg hd, if_neg hd, ih']

end Locate

/-! ## Key uniqueness and the characterization of `location` and `get` -/

section Characterization

variable {K V : Type} {keq : K → K → Bool} {hash : K → Nat}

@[simp] theorem nodeAt_eq (s : NodeStorage K V) (p : Nat) :
    s.nodeAt p = s.nodes.getD p Slot.empty := rfl

@[simp] theorem nodes_mk (s : NodeStorage K V) :
    (HashMap.mk s).nodes = s := rfl

/-- Positional form of key uniqueness: distinct occupied positions hold
`keq`-distinct keys. -/
theorem keyNodup_position (hK : KeyHyps keq hash) {l : List (Slot K V)}
    (hnd : keyNodup keq l) {p q : Nat} {k k' : K} {v v' : V} {d d' : Nat}
    (hpq : p ≠ q) (hp : l.getD p Slot.empty = Slot.occupied k v d)
    (hq : l.getD q Slot.empty = Slot.occupied k' v' d') :
    keq k k' = false := by
  have hplt := lt_length_of_getD_occupied hp
  have hqlt := lt_length_of_getD_occupied hq
  rw [getD_eq_getElem hplt] at hp
  rw [getD_eq_getElem hqlt] at hq
  have hnd' : List.Pairwise (fun a b : K × V => keq a.1 b.1 = false)
      (entryList l) := hnd
  rw [entryList] at hnd'
  have hpair := List.pairwise_filterMap.1 hnd'
  rw [List.pairwise_iff_getElem] at hpair
  rcases Nat.lt_or_ge p q with hlt | hge
  · have := hpair p q hplt hqlt hlt
    rw [hp, hq] at this
    exact this (k, v) (by simp) (k', v') (by simp)
  · have hqp : q < p := by omega
    have := hpair q p hqlt hplt hqp
    rw [hp, hq] at this
    have hflip := this (k', v') (by simp) (k, v) (by simp)
    by_cases hkk : keq k k' = true
    · exact absurd (hK.symm _ _ hkk) (by simp [hflip])
    · exact Bool.eq_false_iff.2 hkk

/-- Completeness of `location`: a stored entry with a `keq`-matching key is
located at exactly its position. -/
theorem location_eq_some (hK : KeyHyps keq hash) {s : NodeStorage K V}
    (hpath : pathInv hash s.nodes) (hnd : keyNodup keq s.nodes)
    {p : Nat} {k0 : K} {v0 : V} {d0 : Nat} {key : K}
    (hslot : s.nodes.getD p Slot.empty = Slot.occupied k0 v0 d0)
    (hkeq : keq k0 key = true) :
    s.location keq key (hash key) = some p := by
  have hp : p < s.nodes.length := lt_length_of_getD_occupied hslot
  have hd0 : d0 < s.nodes.length := by
    have := hpath p hp
    rw [slotPathOk, hslot] at this
    exact this.1
  have hsome : (locateGo keq s.nodes key (hash key % s.nodes.length) 0
      s.nodes.length).isSome = true :=
    locateGo_isSome hpath hslot hkeq (hK.hashCompat k0 key hkeq)
      s.nodes.length 0 (Nat.zero_le _) (by omega)
  rw [NodeStorage.location]
  obtain ⟨q, hq⟩ := Option.isSome_iff_exists.1 hsome
  rw [hq]
  obtain ⟨k1, v1, d1, hslot1, hkeq1⟩ := locateGo_some hq
  by_cases hqp : q = p
  · rw [hqp]
  · have hk10 : keq k1 k0 = true :=
      hK.trans k1 key k0 hkeq1 (hK.symm _ _ hkeq)
    have := keyNodup_position hK hnd hqp hslot1 hslot
    rw [hk10] at this
    exact absurd this (by simp)

/-- `location` misses exactly when no stored entry has a `keq`-matching
key. -/
theorem location_eq_none_iff (hK : KeyHyps keq hash) {s : NodeStorage K V}
    (hpath : pathInv hash s.nodes) {key : K} :
    s.location keq key (hash key) = none ↔
      ∀ p k0 v0 d0, s.nodes.getD p Slot.empty = Slot.occupied k0 v0 d0 →
        keq k0 key = false := by
  constructor
  · intro hnone p k0 v0 d0 hslot
    by_cases hkeq : keq k0 key = true
    · have hd0 : d0 < s.nodes.length := by
        have := hpath p (lt_length_of_getD_occupied hslot)
        rw [slotPathOk, hslot] at this
        exact this.1
      have hsome : (locateGo keq s.nodes key (hash key % s.nodes.length) 0
          s.nodes.length).isSome = true :=
        locateGo_isSome hpath hslot hkeq (hK.hashCompat k0 key hkeq)
          s.nodes.length 0 (Nat.zero_le _) (by omega)
      rw [NodeStorage.location] at hnone
      rw [hnone] at hsome
      exact absurd hsome (by simp)
    · exact Bool.eq_false_iff.2 hkeq
  · intro habs
    cases hloc : s.location keq key (hash key) with
    | none => rfl
    | some q =>
      obtain ⟨k1, v1, d1, hslot1, hkeq1⟩ := locateGo_some hloc
      rw [habs q k1 v1 d1 hslot1] at hkeq1
      exact absurd hkeq1 (by simp)

/-- `get_key_value` finds the stored key and value of any stored entry whose
key `keq`-matches the query. -/
theorem getKeyValue_of_entry (hK : KeyHyps keq hash) {s : NodeStorage K V}
    (hpath : pathInv hash s.nodes) (hnd : keyNodup keq s.nodes)
    {p : Nat} {k0 : K} {v0 : V} {d0 : Nat} {key : K}
    (hslot : s.nodes.getD p Slot.empty = Slot.occupied k0 v0 d0)
    (hkeq : keq k0 key = true) :
    HashMap.getKeyValue keq hash ⟨s⟩ key = some (k0, v0) := by
  rw [HashMap.getKeyValue, nodes_mk, location_eq_some hK hpath hnd hslot hkeq]
  simp only [nodeAt_eq, hslot]
  rfl

/-- `get` finds the value of any stored entry whose key `keq`-matches the
query. -/
theorem get_of_entry (hK : KeyHyps keq hash) {s : NodeStorage K V}
    (hpath : pathInv hash s.nodes) (hnd : keyNodup keq s.nodes)
    {p : Nat} {k0 : K} {v0 : V} {d0 : Nat} {key : K}
    (hslot : s.nodes.getD p Slot.empty = Slot.occupied k0 v0 d0)
    (hkeq : keq k0 key = true) :
    HashMap.get keq hash ⟨s⟩ key = some v0 := by
  rw [HashMap.get, getKeyValue_of_entry hK hpath hnd hslot hkeq]
  rfl

/-- Soundness of `get`: a returned value is stored under a `keq`-matching
key. -/
theorem get_some_sound {s : NodeStorage K V} {key : K} {v : V}
    (h : HashMap.get keq hash ⟨s⟩ key = some v) :
    ∃ p k0 d0, s.nodes.getD p Slot.empty = Slot.occupied k0 v d0 ∧
      keq k0 key = true := by
  rw [HashMap.get, HashMap.getKeyValue, nodes_mk] at h
  cases hloc : NodeStorage.location keq s key (hash key) with
  | none => rw [hloc] at h; exact absurd h (by simp)
  | some q =>
    rw [hloc] at h
    obtain ⟨k1, v1, d1, hslot1, hkeq1⟩ := locateGo_some hloc
    have h2 : ((s.nodes.getD q Slot.empty).keyValueRef).map Prod.snd =
        some v := by
      simpa using h
    rw [hslot1] at h2
    obtain rfl : v1 = v := by
      simpa [Slot.keyValueRef] using h2
    exact ⟨q, k1, d1, hslot1, hkeq1⟩

/-- `get` misses exactly when no stored entry has a `keq`-matching key. -/
theorem get_eq_none_iff (hK : KeyHyps keq hash) {s : NodeStorage K V}
    (hpath : pathInv hash s.nodes) {key : K} :
    HashMap.get keq hash ⟨s⟩ key = none ↔
      ∀ p k0 v0 d0, s.nodes.getD p Slot.empty = Slot.occupied k0 v0 d0 →
        keq k0 key = false := by
  rw [HashMap.get, HashMap.getKeyValue, nodes_mk]
  constructor
  · intro hnone
    cases hloc : s.location keq key (hash key) with
    | none => exact (location_eq_none_iff hK hpath).1 hloc
    | some q =>
      rw [hloc] at hnone
      obtain ⟨k1, v1, d1, hslot1, hkeq1⟩ := locateGo_some hloc
      have h2 : ((s.nodes.getD q Slot.empty).keyValueRef).map Prod.snd =
          none := by
        simpa using hnone
      rw [hslot1] at h2
      exact absurd h2 (by simp [Slot.keyValueRef])
  · intro habs
    rw [(location_eq_none_iff hK hpath).2 habs]
    rfl

end Characterization

/-! ## Insert-new: the Robin Hood displacement walk -/

section InsertNew

variable {K V : Type} {keq : K → K → Bool} {hash : K → Nat}

theorem insertNewGo_succ {l : List (Slot K V)} {key : K} {value : V}
    {d q fuel : Nat} {res : Option Nat} :
    insertNewGo l key value d q res (fuel + 1) =
      match l.getD q Slot.empty with
      | .empty => (l.set q (.occupied key value d), res.getD q)
      | .occupied k2 v2 d2 =>
        if d2 < d then
          insertNewGo (l.set q (.occupied key value d)) k2 v2 (d2 + 1)
            ((q + 1) % l.length) (some (res.getD q)) fuel
        else
          insertNewGo l key value (d + 1) ((q + 1) % l.length) res fuel :=
  rfl

theorem insertNewGo_step_empty {l : List (Slot K V)} {key : K} {value : V}
    {d q fuel : Nat} {res : Option Nat}
    (h : l.getD q Slot.empty = Slot.empty) :
    insertNewGo l key value d q res (fuel + 1) =
      (l.set q (.occupied key value d), res.getD q) := by
  rw [insertNewGo_succ, h]

theorem insertNewGo_step_swap {l : List (Slot K V)} {key : K} {value : V}
    {d q fuel : Nat} {res : Option Nat} {k2 : K} {v2 : V} {d2 : Nat}
    (h : l.getD q Slot.empty = Slot.occupied k2 v2 d2) (hlt : d2 < d) :
    insertNewGo l key value d q res (fuel + 1) =
      insertNewGo (l.set q (.occupied key value d)) k2 v2 (d2 + 1)
        ((q + 1) % l.length) (some (res.getD q)) fuel := by
  rw [insertNewGo_succ, h]
  show (if d2 < d then _ else _) = _
  rw [if_pos hlt]

theorem insertNewGo_step_advance {l : List (Slot K V)} {key : K} {value : V}
    {d q fuel : Nat} {res : Option Nat} {k2 : K} {v2 : V} {d2 : Nat}
    (h : l.getD q Slot.empty = Slot.occupied k2 v2 d2) (hge : ¬ d2 < d) :
    insertNewGo l key value d q res (fuel + 1) =
      insertNewGo l key value (d + 1) ((q + 1) % l.length) res fuel := by
  rw [insertNewGo_succ, h]
  show (if d2 < d then _ else _) = _
  rw [if_neg hge]

theorem insertNewGo_length {l : List (Slot K V)} {key : K} {value : V}
    {d q fuel : Nat} {res : Option Nat} :
    (insertNewGo l key value d q res fuel).1.length = l.length := by
  induction fuel generalizing l key value d q res with
  | zero => rfl
  | succ fuel ih =>
    cases hslot : l.getD q Slot.empty with
    | empty => rw [insertNewGo_step_empty hslot]; simp
    | occupied k2 v2 d2 =>
      by_cases hlt : d2 < d
      · rw [insertNewGo_step_swap hslot hlt]
        have h2 := @ih (l.set q (.occupied key value d)) k2 v2 (d2 + 1)
          ((q + 1) % l.length) (some (res.getD q))
        rw [List.length_set] at h2
        exact h2
      · rw [insertNewGo_step_advance hslot hlt]
        exact @ih l key value (d + 1) ((q + 1) % l.length) res

/-- A backing array that is not full has an empty slot. -/
theorem exists_empty_of_count_lt {l : List (Slot K V)}
    (h : (entryList l).length < l.length) :
    ∃ p, p < l.length ∧ l.getD p Slot.empty = Slot.empty := by
  induction l with
  | nil => simp at h
  | cons x t ih =>
    cases x with
    | empty => exact ⟨0, by simp, rfl⟩
    | occupied k v d =>
      rw [entryList_cons_occupied] at h
      simp only [List.length_cons] at h
      obtain ⟨p, hp, hempty⟩ := ih (by omega)
      exact ⟨p + 1, by simpa using hp, by simpa using hempty⟩

/-- From an empty slot anywhere, an empty slot lies ahead of any probe
origin within the wrap-around distance. -/
theorem empty_ahead {l : List (Slot K V)} {q p : Nat} (hq : q < l.length)
    (hp : p < l.length) (hempty : l.getD p Slot.empty = Slot.empty) :
    ∃ j, j < l.length ∧
      l.getD ((q + j) % l.length) Slot.empty = Slot.empty := by
  refine ⟨(p + l.length - q) % l.length, Nat.mod_lt _ (by omega), ?_⟩
  have hstep : (q + (p + l.length - q) % l.length) % l.length =
      (q + (p + l.length - q)) % l.length := by
    rw [Nat.add_comm q, Nat.mod_add_mod, Nat.add_comm]
  have harith : q + (p + l.length - q) = p + l.length := by omega
  rw [hstep, harith, Nat.add_mod_right, Nat.mod_eq_of_lt hp]
  exact hempty

/-- Content of the displacement walk: if an empty slot is reachable within
the fuel, the walk terminates by placing, and the multiset of stored entries
grows by exactly the inserted pair. -/
theorem insertNewGo_perm {l : List (Slot K V)} {key : K} {value : V}
    {d q fuel : Nat} {res : Option Nat} (hn : 0 < l.length)
    (hq : q < l.length)
    (hex : ∃ j, j < fuel ∧ j < l.length ∧
      l.getD ((q + j) % l.length) Slot.empty = Slot.empty) :
    List.Perm (entryList (insertNewGo l key value d q res fuel).1)
      ((key, value) :: entryList l) := by
  induction fuel generalizing l key value d q res with
  | zero =>
    obtain ⟨j, hj, -, -⟩ := hex
    omega
  | succ fuel ih =>
    obtain ⟨j, hjf, hjn, hempty⟩ := hex
    cases hslot : l.getD q Slot.empty with
    | empty =>
      rw [insertNewGo_step_empty hslot]
      exact entryList_set_occupied hq hslot key value d
    | occupied k2 v2 d2 =>
      have hj0 : j ≠ 0 := by
        intro h0
        rw [h0, Nat.add_zero, Nat.mod_eq_of_lt hq, hslot] at hempty
        exact Slot.noConfusion hempty
      obtain ⟨j', rfl⟩ : ∃ j', j = j' + 1 := ⟨j - 1, by omega⟩
      have hidx : ((q + 1) % l.length + j') % l.length =
          (q + (j' + 1)) % l.length := by
        rw [Nat.mod_add_mod, Nat.add_assoc, Nat.add_comm 1 j']
      by_cases hlt : d2 < d
      · rw [insertNewGo_step_swap hslot hlt]
        have hne : (q + (j' + 1)) % l.length ≠ q :=
          probe_add_ne_self hq (by omega) (by omega)
        have hempty₁ :
            (l.set q (.occupied key value d)).getD
              (((q + 1) % l.length + j') %
                (l.set q (.occupied key value d)).length) Slot.empty =
              Slot.empty := by
          rw [List.length_set, hidx,
            getD_set_ne (fun hh => hne hh.symm)]
          exact hempty
        have hrec := @ih (l.set q (.occupied key value d)) k2 v2 (d2 + 1)
          ((q + 1) % l.length) (some (res.getD q))
          (by rw [List.length_set]; exact hn)
          (by rw [List.length_set]; exact Nat.mod_lt _ hn)
          ⟨j', by omega, by rw [List.length_set]; omega, hempty₁⟩
        refine hrec.trans ?_
        have h1 : List.Perm (entryList l)
            ((k2, v2) :: entryList (l.set q Slot.empty)) :=
          entryList_set_empty hslot
        have hset : (l.set q Slot.empty).set q (.occupied key value d) =
            l.set q (.occupied key value d) :=
          List.set_set Slot.empty (.occupied key value d) l q
        have h2 : List.Perm (entryList (l.set q (.occupied key value d)))
            ((key, value) :: entryList (l.set q Slot.empty)) := by
          rw [← hset]
          exact entryList_set_occupied (by simpa using hq)
            (getD_set_self hq Slot.empty) key value d
        refine (h2.cons (k2, v2)).trans ?_
        refine (List.Perm.swap _ _ _).trans ?_
        exact (h1.symm.cons (key, value))
      · rw [insertNewGo_step_advance hslot hlt]
        have hempty' :
            l.getD (((q + 1) % l.length + j') % l.length) Slot.empty =
              Slot.empty := by
          rw [hidx]
          exact hempty
        exact @ih l key value (d + 1) ((q + 1) % l.length) res hn
          (Nat.mod_lt _ hn) ⟨j', by omega, by omega, hempty'⟩

/-- Writing a coherent entry over a slot it dominates (every probe-path
obligation the old slot met, the new DIB also meets) preserves the hashing
invariant. -/
theorem pathInv_set {l : List (Slot K V)} {key : K} {value : V} {d q : Nat}
    (hinv : pathInv hash l) (hq : q < l.length)
    (hcoh : q = (hash key + d) % l.length) (hd : d < l.length)
    (hpath : ∀ t, t < d →
      (l.getD ((hash key + t) % l.length) Slot.empty).isOccWithDibGe t)
    (hweak : ∀ t, (l.getD q Slot.empty).isOccWithDibGe t → t ≤ d) :
    pathInv hash (l.set q (Slot.occupied key value d)) := by
  intro p hp
  rw [List.length_set] at hp
  rw [slotPathOk]
  by_cases hpq : p = q
  · subst hpq
    rw [getD_set_self hp]
    refine ⟨?_, ?_, ?_⟩
    · simpa using hd
    · simpa using hcoh
    · intro t ht
      have hne : (hash key + t) % l.length ≠ p := by
        intro hh
        rw [hcoh] at hh
        have := probe_inj (Nat.lt_trans ht hd) hd hh
        omega
      rw [List.length_set, getD_set_ne (fun hh => hne hh.symm)]
      exact hpath t ht
  · rw [getD_set_ne (fun hh => hpq hh.symm)]
    cases hslot : l.getD p Slot.empty with
    | empty => exact trivial
    | occupied k1 v1 d1 =>
      have old := hinv p hp
      rw [slotPathOk, hslot] at old
      obtain ⟨h1, h2, h3⟩ := old
      refine ⟨by simpa using h1, by simpa using h2, ?_⟩
      intro t ht
      rw [List.length_set]
      by_cases hidx : (hash k1 + t) % l.length = q
      · rw [hidx, getD_set_self hq]
        have := h3 t ht
        rw [hidx] at this
        exact hweak t this
      · rw [getD_set_ne (fun hh => hidx hh.symm)]
        exact h3 t ht

/-- The displacement walk preserves the hashing invariant, provided the
travelling entry is coherent for its current probe position and has already
met its own path obligations. -/
theorem insertNewGo_pathInv {l : List (Slot K V)} {key : K} {value : V}
    {d q fuel : Nat} {res : Option Nat} (hn : 0 < l.length)
    (hq : q < l.length) (hinv : pathInv hash l)
    (hcoh : q = (hash key + d) % l.length)
    (hpath : ∀ t, t < d →
      (l.getD ((hash key + t) % l.length) Slot.empty).isOccWithDibGe t)
    (hfuel : d + fuel ≤ l.length) :
    pathInv hash (insertNewGo l key value d q res fuel).1 := by
  induction fuel generalizing l key value d q res with
  | zero => exact hinv
  | succ fuel ih =>
    cases hslot : l.getD q Slot.empty with
    | empty =>
      rw [insertNewGo_step_empty hslot]
      refine pathInv_set hinv hq hcoh (by omega) hpath ?_
      intro t ht
      rw [hslot] at ht
      exact ht.elim
    | occupied k2 v2 d2 =>
      have old2 := hinv q hq
      rw [slotPathOk, hslot] at old2
      obtain ⟨hd2, hq2, hsteps2⟩ := old2
      have hsucc : ∀ (hkv : Nat), ((hkv + 0) % l.length + 1) % l.length =
          (hkv + 1) % l.length := by
        intro hkv
        rw [Nat.mod_add_mod]
      by_cases hlt : d2 < d
      · rw [insertNewGo_step_swap hslot hlt]
        have hinv₁ : pathInv hash (l.set q (Slot.occupied key value d)) :=
          pathInv_set hinv hq hcoh (by omega) hpath
            (fun t ht => by
              rw [hslot] at ht
              exact Nat.le_trans ht (Nat.le_of_lt hlt))
        refine @ih (l.set q (Slot.occupied key value d)) k2 v2 (d2 + 1)
          ((q + 1) % l.length) (some (res.getD q))
          (by simpa using hn)
          (by rw [List.length_set]; exact Nat.mod_lt _ hn)
          hinv₁ ?_ ?_ (by rw [List.length_set]; omega)
        · rw [List.length_set, hq2, Nat.mod_add_mod, Nat.add_assoc]
        · intro t ht
          rw [List.length_set]
          rcases Nat.lt_or_ge t d2 with htlt | htge
          · have hne : (hash k2 + t) % l.length ≠ q := by
              intro hh
              rw [hq2] at hh
              have := probe_inj (by omega) hd2 hh
              omega
            rw [getD_set_ne (fun hh => hne hh.symm)]
            exact hsteps2 t htlt
          · have ht2 : t = d2 := by omega
            subst ht2
            rw [← hq2, getD_set_self hq]
            exact Nat.le_of_lt hlt
      · rw [insertNewGo_step_advance hslot hlt]
        refine @ih l key value (d + 1) ((q + 1) % l.length) res hn
          (Nat.mod_lt _ hn) hinv ?_ ?_ (by omega)
        · rw [hcoh, Nat.mod_add_mod, Nat.add_assoc]
        · intro t ht
          rcases Nat.lt_or_ge t d with htlt | htge
          · exact hpath t htlt
          · have ht2 : t = d := by omega
            subst ht2
            rw [← hcoh, hslot]
            exact Nat.le_of_not_lt hlt

end InsertNew

/-! ## Storage-level operations -/

section StorageOps

variable {K V : Type} {keq : K → K → Bool} {hash : K → Nat}

theorem keq_false_symm (hK : KeyHyps keq hash) {a b : K}
    (h : keq a b = false) : keq b a = false := by
  by_cases h2 : keq b a = true
  · rw [hK.symm b a h2] at h
    exact absurd h (by simp)
  · exact Bool.eq_false_iff.2 h2

@[simp] theorem getD_replicate_empty {n p : Nat} :
    (List.replicate n (Slot.empty : Slot K V)).getD p Slot.empty =
      Slot.empty := by
  rcases Nat.lt_or_ge p n with h | h
  · rw [getD_eq_getElem (by simpa using h)]
    simp
  · exact getD_of_le_length (by simpa using h)

theorem insertNew_nodes_length {s : NodeStorage K V} {key : K} {value : V}
    {hashv : Nat} :
    (s.insertNew key value hashv).1.nodes.length = s.nodes.length :=
  insertNewGo_length

theorem insertNew_numberOfItems {s : NodeStorage K V} {key : K} {value : V}
    {hashv : Nat} :
    (s.insertNew key value hashv).1.numberOfItems = s.numberOfItems + 1 :=
  rfl

/-- Inserting a fresh key adds exactly its pair to the stored entries. -/
theorem insertNew_perm {s : NodeStorage K V} {key : K} {value : V}
    (hn : 0 < s.nodes.length)
    (hcount : (entryList s.nodes).length < s.nodes.length) :
    List.Perm (entryList (s.insertNew key value (hash key)).1.nodes)
      ((key, value) :: entryList s.nodes) := by
  obtain ⟨p, hp, hempty⟩ := exists_empty_of_count_lt hcount
  have hq : hash key % s.nodes.length < s.nodes.length := Nat.mod_lt _ hn
  obtain ⟨j, hj, hje⟩ := empty_ahead hq hp hempty
  exact insertNewGo_perm hn hq ⟨j, hj, hj, hje⟩

/-- Inserting a fresh key preserves the hashing invariant. -/
theorem insertNew_pathInv {s : NodeStorage K V} {key : K} {value : V}
    (hn : 0 < s.nodes.length) (hinv : pathInv hash s.nodes) :
    pathInv hash (s.insertNew key value (hash key)).1.nodes := by
  refine insertNewGo_pathInv hn (Nat.mod_lt _ hn) hinv ?_ ?_ ?_
  · rw [Nat.add_zero]
  · intro t ht
    omega
  · omega

/-- Inserting a fresh key preserves key uniqueness. -/
theorem insertNew_keyNodup (hK : KeyHyps keq hash) {s : NodeStorage K V}
    {key : K} {value : V} (hn : 0 < s.nodes.length)
    (hcount : (entryList s.nodes).length < s.nodes.length)
    (hnd : keyNodup keq s.nodes)
    (hfresh : ∀ kv ∈ entryList s.nodes, keq key kv.1 = false) :
    keyNodup keq (s.insertNew key value (hash key)).1.nodes := by
  have hperm : List.Perm (entryList (s.insertNew key value (hash key)).1.nodes)
      ((key, value) :: entryList s.nodes) := insertNew_perm hn hcount
  refine (hperm.pairwise_iff (fun hxy => keq_false_symm hK hxy)).2 ?_
  rw [List.pairwise_cons]
  exact ⟨fun kv hkv => hfresh kv hkv, hnd⟩

theorem replaceAtLocation_eq {l : List (Slot K V)} {p : Nat} {inKey k0 : K}
    {v0 value : V} {d0 : Nat}
    (h : l.getD p Slot.empty = Slot.occupied k0 v0 d0) :
    replaceAtLocation l p inKey value =
      (l.set p (Slot.occupied k0 value d0), v0) := by
  rw [replaceAtLocation, h]

/-- Replacing a value in place preserves the hashing invariant. -/
theorem pathInv_replace {l : List (Slot K V)} {p : Nat} {k0 : K}
    {v0 value : V} {d0 : Nat} (hinv : pathInv hash l)
    (h : l.getD p Slot.empty = Slot.occupied k0 v0 d0) :
    pathInv hash (l.set p (Slot.occupied k0 value d0)) := by
  have hp : p < l.length := lt_length_of_getD_occupied h
  have old := hinv p hp
  rw [slotPathOk, h] at old
  obtain ⟨h1, h2, h3⟩ := old
  refine pathInv_set hinv hp h2 h1 h3 ?_
  intro t ht
  rw [h] at ht
  exact ht

/-- Replacing a value in place permutes the stored entries by swapping the
old pair for the new one. -/
theorem entryList_replace {l : List (Slot K V)} {p : Nat} {k0 : K}
    {v0 value : V} {d0 : Nat}
    (h : l.getD p Slot.empty = Slot.occupied k0 v0 d0) :
    List.Perm (entryList (l.set p (Slot.occupied k0 value d0)))
      ((k0, value) :: entryList (l.set p Slot.empty)) := by
  have hp : p < l.length := lt_length_of_getD_occupied h
  have hset : (l.set p Slot.empty).set p (Slot.occupied k0 value d0) =
      l.set p (Slot.occupied k0 value d0) :=
    List.set_set Slot.empty (Slot.occupied k0 value d0) l p
  rw [← hset]
  exact entryList_set_occupied (by simpa using hp)
    (getD_set_self hp Slot.empty) k0 value d0

/-- Replacing a value in place preserves key uniqueness. -/
theorem keyNodup_replace (hK : KeyHyps keq hash) {l : List (Slot K V)}
    {p : Nat} {k0 : K} {v0 value : V} {d0 : Nat} (hnd : keyNodup keq l)
    (h : l.getD p Slot.empty = Slot.occupied k0 v0 d0) :
    keyNodup keq (l.set p (Slot.occupied k0 value d0)) := by
  have h1 : List.Perm (entryList l)
      ((k0, v0) :: entryList (l.set p Slot.empty)) :=
    entryList_set_empty h
  have h2 : List.Perm (entryList (l.set p (Slot.occupied k0 value d0)))
      ((k0, value) :: entryList (l.set p Slot.empty)) := entryList_replace h
  have hnd1 := (h1.pairwise_iff (fun hxy => keq_false_symm hK hxy)).1 hnd
  rw [List.pairwise_cons] at hnd1
  refine (h2.pairwise_iff (fun hxy => keq_false_symm hK hxy)).2 ?_
  rw [List.pairwise_cons]
  exact ⟨fun kv hkv => hnd1.1 kv hkv, hnd1.2⟩

theorem backShiftGo_zero {l : List (Slot K V)} {g : Nat} :
    backShiftGo l g 0 = l := rfl

theorem backShiftGo_succ {l : List (Slot K V)} {g fuel : Nat} :
    backShiftGo l g (fuel + 1) =
      match l.getD ((g + 1) % l.length) Slot.empty with
      | .empty => l
      | .occupied k v d =>
        match d with
        | 0 => l
        | e + 1 =>
          backShiftGo
            ((l.set g (.occupied k v e)).set ((g + 1) % l.length) .empty)
            ((g + 1) % l.length) fuel := rfl

/-- The backward shift walk preserves the multiset of stored entries and the
array length, as long as the starting gap is empty. -/
theorem backShiftGo_perm {l : List (Slot K V)} {g fuel : Nat}
    (hglt : g < l.length) (hg : l.getD g Slot.empty = Slot.empty) :
    List.Perm (entryList (backShiftGo l g fuel)) (entryList l) ∧
      (backShiftGo l g fuel).length = l.length := by
  induction fuel generalizing l g with
  | zero => exact ⟨List.Perm.refl _, rfl⟩
  | succ fuel ih =>
    rw [backShiftGo_succ]
    cases hslot : l.getD ((g + 1) % l.length) Slot.empty with
    | empty => exact ⟨List.Perm.refl _, rfl⟩
    | occupied k v d =>
      cases d with
      | zero => exact ⟨List.Perm.refl _, rfl⟩
      | succ e =>
        have hq : (g + 1) % l.length < l.length :=
          lt_length_of_getD_occupied hslot
        have hgq : g ≠ (g + 1) % l.length := by
          intro hh
          rw [← hh, hg] at hslot
          exact Slot.noConfusion hslot
        set lA := l.set g (Slot.occupied k v e) with hlA
        set l₂ := lA.set ((g + 1) % l.length) Slot.empty with hl₂
        have hlenA : lA.length = l.length := by simp [hlA]
        have hlen₂ : l₂.length = l.length := by simp [hl₂, hlA]
        have hAq : lA.getD ((g + 1) % l.length) Slot.empty =
            Slot.occupied k v (e + 1) := by
          rw [hlA, getD_set_ne hgq]
          exact hslot
        have hpermA : List.Perm (entryList lA)
            ((k, v) :: entryList l) := by
          rw [hlA]
          exact entryList_set_occupied hglt hg k v e
        have hpermA2 : List.Perm (entryList lA)
            ((k, v) :: entryList l₂) := by
          rw [hl₂]
          exact entryList_set_empty hAq
        have hperm₂ : List.Perm (entryList l₂) (entryList l) :=
          List.Perm.cons_inv (hpermA2.symm.trans hpermA)
        have hg₂ : l₂.getD ((g + 1) % l.length) Slot.empty = Slot.empty := by
          rw [hl₂]
          exact getD_set_self (by rw [hlenA]; exact hq) Slot.empty
        obtain ⟨ihperm, ihlen⟩ := ih (by rw [hlen₂]; exact hq) hg₂
        constructor
        · exact ihperm.trans hperm₂
        · rw [ihlen, hlen₂]

end StorageOps

/-! ## Rebuild on resize -/

section Rebuild

variable {K V : Type} {keq : K → K → Bool} {hash : K → Nat}

/-- Folding fresh, pairwise-distinct entries into a storage with enough room
maintains every invariant, and the final content is the concatenation. -/
theorem foldInsert_spec (hK : KeyHyps keq hash) :
    ∀ (es : List (K × V)) (acc : NodeStorage K V),
      0 < acc.nodes.length →
      pathInv hash acc.nodes →
      keyNodup keq acc.nodes →
      (entryList acc.nodes).length + es.length ≤ acc.nodes.length →
      List.Pairwise (fun a b : K × V => keq a.1 b.1 = false) es →
      (∀ e ∈ es, ∀ a ∈ entryList acc.nodes, keq e.1 a.1 = false) →
      (es.foldl (fun a kv => (a.insertNew kv.1 kv.2 (hash kv.1)).1)
          acc).nodes.length = acc.nodes.length ∧
        pathInv hash (es.foldl
          (fun a kv => (a.insertNew kv.1 kv.2 (hash kv.1)).1) acc).nodes ∧
        keyNodup keq (es.foldl
          (fun a kv => (a.insertNew kv.1 kv.2 (hash kv.1)).1) acc).nodes ∧
        List.Perm (entryList (es.foldl
            (fun a kv => (a.insertNew kv.1 kv.2 (hash kv.1)).1) acc).nodes)
          (es ++ entryList acc.nodes) ∧
        (es.foldl (fun a kv => (a.insertNew kv.1 kv.2 (hash kv.1)).1)
            acc).numberOfItems = acc.numberOfItems + es.length := by
  intro es
  induction es with
  | nil =>
    intro acc hn hpath hnd hle hpair hfresh
    exact ⟨rfl, hpath, hnd, by simp, rfl⟩
  | cons e es ih =>
    obtain ⟨ek, ev⟩ := e
    intro acc hn hpath hnd hle hpair hfresh
    rw [List.pairwise_cons] at hpair
    have hcount : (entryList acc.nodes).length < acc.nodes.length := by
      simp only [List.length_cons] at hle
      omega
    have hperm1 : List.Perm
        (entryList (acc.insertNew ek ev (hash ek)).1.nodes)
        ((ek, ev) :: entryList acc.nodes) := insertNew_perm hn hcount
    have hfresh1 : ∀ kv ∈ entryList acc.nodes, keq ek kv.1 = false :=
      fun kv hkv => hfresh (ek, ev) (by simp) kv hkv
    have hlen1 : (acc.insertNew ek ev (hash ek)).1.nodes.length =
        acc.nodes.length := insertNew_nodes_length
    have hcount1 : (entryList (acc.insertNew ek ev (hash ek)).1.nodes).length
        = (entryList acc.nodes).length + 1 := by
      rw [hperm1.length_eq]
      simp
    have hrec := ih (acc.insertNew ek ev (hash ek)).1
      (by rw [hlen1]; exact hn)
      (insertNew_pathInv hn hpath)
      (insertNew_keyNodup hK hn hcount hnd hfresh1)
      (by
        rw [hlen1, hcount1]
        simp only [List.length_cons] at hle
        omega)
      hpair.2
      (by
        intro x hx a ha
        rcases List.mem_cons.1 ((hperm1.mem_iff).1 ha) with hhead | htail
        · rw [hhead]
          exact keq_false_symm hK (hpair.1 x hx)
        · exact hfresh x (by simp [hx]) a htail)
    obtain ⟨hl, hp, hk, hpm, hc⟩ := hrec
    refine ⟨by rw [List.foldl_cons, hl, hlen1], by rw [List.foldl_cons]; exact hp,
      by rw [List.foldl_cons]; exact hk, ?_, ?_⟩
    · rw [List.foldl_cons]
      refine hpm.trans ?_
      refine (List.Perm.append_left es hperm1).trans ?_
      exact List.perm_middle
    · rw [List.foldl_cons, hc, insertNew_numberOfItems]
      simp only [List.length_cons]
      omega

/-- The full-table rebuild: same entries, fresh array of the requested size,
all invariants re-established. -/
theorem resizedTo_spec (hK : KeyHyps keq hash) {s : NodeStorage K V}
    {newSize : Nat} (hn : 0 < newSize) (hnd : keyNodup keq s.nodes)
    (hfit : (entryList s.nodes).length ≤ newSize) :
    (s.resizedTo hash newSize).nodes.length = newSize ∧
      pathInv hash (s.resizedTo hash newSize).nodes ∧
      keyNodup keq (s.resizedTo hash newSize).nodes ∧
      List.Perm (entryList (s.resizedTo hash newSize).nodes)
        (entryList s.nodes) ∧
      (s.resizedTo hash newSize).numberOfItems =
        (entryList s.nodes).length := by
  have hbase : (NodeStorage.withSize newSize : NodeStorage K V).nodes =
      List.replicate newSize Slot.empty := rfl
  have hlen0 : (NodeStorage.withSize newSize : NodeStorage K V).nodes.length
      = newSize := by rw [hbase, List.length_replicate]
  have hel0 : entryList
      (NodeStorage.withSize newSize : NodeStorage K V).nodes = [] := by
    rw [hbase, entryList_replicate]
  have hspec := foldInsert_spec hK (entryList s.nodes)
    (NodeStorage.withSize newSize)
    (by rw [hlen0]; exact hn)
    (by
      intro p hp
      rw [slotPathOk, hbase, getD_replicate_empty]
      exact trivial)
    (by rw [keyNodup, hel0]; exact List.Pairwise.nil)
    (by rw [hlen0, hel0]; simpa using hfit)
    hnd
    (by
      intro e he a ha
      rw [hel0] at ha
      exact absurd ha (List.not_mem_nil a))
  obtain ⟨hl, hp, hk, hpm, hc⟩ := hspec
  refine ⟨by rw [NodeStorage.resizedTo, hl, hlen0],
    hp, hk, ?_, by rw [NodeStorage.resizedTo, hc]; simp [NodeStorage.withSize]⟩
  rw [NodeStorage.resizedTo]
  refine hpm.trans ?_
  rw [hel0, List.append_nil]

end Rebuild

/-! ## Map-level branch equations and simple effects -/

section MapBranches

variable {K V : Type} {keq : K → K → Bool} {hash : K → Nat}

theorem insert_present {m : HashMap K V} {key : K} {value : V} {loc : Nat}
    (hloc : m.nodes.location keq key (hash key) = some loc) :
    HashMap.insert keq hash m key value =
      (some (m.nodes.replaceAt loc key value).2,
        ⟨(m.nodes.replaceAt loc key value).1⟩) := by
  rw [HashMap.insert]
  simp only [hloc]

theorem insert_absent_noresize {m : HashMap K V} {key : K} {value : V}
    (hloc : m.nodes.location keq key (hash key) = none)
    (hcap : ¬ m.nodes.capacity ≤ m.len) :
    HashMap.insert keq hash m key value =
      (none, ⟨(m.nodes.insertNew key value (hash key)).1⟩) := by
  rw [HashMap.insert]
  simp only [hloc, if_neg hcap]

theorem insert_absent_resize {m : HashMap K V} {key : K} {value : V}
    (hloc : m.nodes.location keq key (hash key) = none)
    (hcap : m.nodes.capacity ≤ m.len) :
    HashMap.insert keq hash m key value =
      (none, ⟨((HashMap.resize hash m (m.nodes.backingVecSize * 2)).nodes.insertNew
        key value (hash key)).1⟩) := by
  rw [HashMap.insert]
  simp only [hloc, if_pos hcap]

theorem remove_none {m : HashMap K V} {key : K}
    (hloc : m.nodes.location keq key (hash key) = none) :
    HashMap.remove keq hash m key = (none, m) := by
  rw [HashMap.remove]
  simp only [hloc]

theorem remove_some {m : HashMap K V} {key : K} {loc : Nat} {k0 : K}
    {v0 : V} {d0 : Nat}
    (hloc : m.nodes.location keq key (hash key) = some loc)
    (hslot : m.nodes.nodes.getD loc Slot.empty = Slot.occupied k0 v0 d0) :
    HashMap.remove keq hash m key =
      (some v0,
        ⟨⟨backShiftGo (m.nodes.nodes.set loc Slot.empty) loc
            m.nodes.nodes.length,
          m.nodes.numberOfItems - 1⟩⟩) := by
  rw [HashMap.remove]
  simp only [hloc, NodeStorage.removeFromLocation, hslot]

/-- `insert` returns exactly `get` of the map before the call: the previous
value when the key was present, `None` otherwise. -/
theorem insert_fst (m : HashMap K V) (key : K) (value : V) :
    (HashMap.insert keq hash m key value).1 = HashMap.get keq hash m key := by
  cases hloc : m.nodes.location keq key (hash key) with
  | none =>
    rw [HashMap.get, HashMap.getKeyValue, hloc]
    by_cases hcap : m.nodes.capacity ≤ m.len
    · rw [insert_absent_resize hloc hcap]; rfl
    · rw [insert_absent_noresize hloc hcap]; rfl
  | some loc =>
    obtain ⟨k0, v0, d0, hslot, hkeq⟩ := locateGo_some hloc
    rw [insert_present hloc, HashMap.get, HashMap.getKeyValue, hloc]
    rw [NodeStorage.replaceAt]
    rw [replaceAtLocation_eq hslot]
    have hslot2 : m.nodes.nodes[loc]?.getD Slot.empty =
        Slot.occupied k0 v0 d0 := by
      rw [← List.getD_eq_getElem?_getD]
      exact hslot
    simp [hslot2, Slot.keyValueRef]

theorem foldInsert_length (es : List (K × V)) (acc : NodeStorage K V) :
    (es.foldl (fun a kv => (a.insertNew kv.1 kv.2 (hash kv.1)).1)
      acc).nodes.length = acc.nodes.length := by
  induction es generalizing acc with
  | nil => rfl
  | cons e es ih =>
    rw [List.foldl_cons]
    rw [ih]
    exact insertNew_nodes_length

theorem resizedTo_length {s : NodeStorage K V} {newSize : Nat} :
    (s.resizedTo hash newSize).nodes.length = newSize := by
  rw [NodeStorage.resizedTo, foldInsert_length]
  simp [NodeStorage.withSize]

theorem backShiftGo_length {l : List (Slot K V)} {g fuel : Nat} :
    (backShiftGo l g fuel).length = l.length := by
  induction fuel generalizing l g with
  | zero => rfl
  | succ fuel ih =>
    rw [backShiftGo_succ]
    cases l.getD ((g + 1) % l.length) Slot.empty with
    | empty => rfl
    | occupied k v d =>
      cases d with
      | zero => rfl
      | succ e =>
        rw [ih]
        simp

theorem replaceAtLocation_length {l : List (Slot K V)} {p : Nat} {key : K}
    {value : V} : (replaceAtLocation l p key value).1.length = l.length := by
  rw [replaceAtLocation]
  cases l.getD p Slot.empty with
  | empty => rfl
  | occupied k0 v0 d0 => simp

/-- The backing size after an insert: doubled exactly when the key is absent
and the count has reached the threshold on a non-empty table, unchanged
otherwise. -/
theorem insert_backing (m : HashMap K V) (key : K) (value : V) :
    (HashMap.insert keq hash m key value).2.backingVecSize =
      if m.nodes.location keq key (hash key) = none ∧
          m.nodes.capacity ≤ m.len ∧ 0 < m.nodes.nodes.length then
        m.nodes.nodes.length * 2
      else m.nodes.nodes.length := by
  cases hloc : m.nodes.location keq key (hash key) with
  | some loc =>
    rw [insert_present hloc]
    rw [if_neg (by simp)]
    show (m.nodes.replaceAt loc key value).1.nodes.length = _
    rw [NodeStorage.replaceAt]
    exact replaceAtLocation_length
  | none =>
    by_cases hcap : m.nodes.capacity ≤ m.len
    · rw [insert_absent_resize hloc hcap]
      show ((HashMap.resize hash m
        (m.nodes.backingVecSize * 2)).nodes.insertNew key value
          (hash key)).1.nodes.length = _
      rw [insertNew_nodes_length]
      by_cases hn : 0 < m.nodes.nodes.length
      · rw [if_pos ⟨rfl, hcap, hn⟩, HashMap.resize,
          if_pos (by
            show m.nodes.nodes.length < m.nodes.nodes.length * 2
            omega)]
        exact resizedTo_length
      · rw [if_neg (by intro hh; exact hn hh.2.2), HashMap.resize,
          if_neg (by
            show ¬ m.nodes.nodes.length < m.nodes.nodes.length * 2
            omega)]
    · rw [insert_absent_noresize hloc hcap,
        if_neg (by intro hh; exact hcap hh.2.1)]
      show (m.nodes.insertNew key value (hash key)).1.nodes.length = _
      rw [insertNew_nodes_length]

/-- The backing size is unchanged by `remove`. -/
theorem remove_backing (m : HashMap K V) (key : K) :
    (HashMap.remove keq hash m key).2.backingVecSize =
      m.nodes.nodes.length := by
  cases hloc : m.nodes.location keq key (hash key) with
  | none => rw [remove_none hloc]; rfl
  | some loc =>
    cases hslot : m.nodes.nodes.getD loc Slot.empty with
    | empty =>
      rw [HashMap.remove]
      simp only [hloc, NodeStorage.removeFromLocation, hslot]
      rfl
    | occupied k0 v0 d0 =>
      rw [remove_some hloc hslot]
      show (backShiftGo _ _ _).length = _
      rw [backShiftGo_length]
      simp

end MapBranches

/-! ## Insert: invariant preservation and the `get` characterization -/

section MapInsert

variable {K V : Type} {keq : K → K → Bool} {hash : K → Nat}

theorem threshold_lt (n : Nat) (hn : 0 < n) : numberBeforeResize n < n := by
  rw [numberBeforeResize]
  omega

theorem threshold_double (n : Nat) (hn : 0 < n) :
    numberBeforeResize n + 1 ≤ numberBeforeResize (n * 2) := by
  rw [numberBeforeResize, numberBeforeResize]
  have h2 : n * 85 / 100 * 2 ≤ n * 2 * 85 / 100 := by
    rw [Nat.le_div_iff_mul_le (by omega : (0:Nat) < 100)]
    have hf : n * 85 / 100 * 100 ≤ n * 85 := Nat.div_mul_le_self _ _
    omega
  by_cases hb : n * 85 / 100 = 0
  · have h1 : 1 ≤ n * 2 * 85 / 100 := by
      rw [Nat.le_div_iff_mul_le (by omega : (0:Nat) < 100)]
      omega
    omega
  · omega

/-- The staging of the absent-key branch of `insert`: after the conditional
resize, the storage into which the fresh key is inserted satisfies the
invariants, holds the same entries as before, and has room both for the walk
and for the load-factor bound. -/
theorem insert_stage (hK : KeyHyps keq hash) {m : HashMap K V} {key : K}
    {value : V} (hInv : MapInv keq hash m)
    (hloc : m.nodes.location keq key (hash key) = none) :
    ∃ s1 : NodeStorage K V,
      (HashMap.insert keq hash m key value).2 =
        ⟨(s1.insertNew key value (hash key)).1⟩ ∧
      pathInv hash s1.nodes ∧ keyNodup keq s1.nodes ∧
      s1.numberOfItems = (entryList s1.nodes).length ∧
      (entryList s1.nodes).length < s1.nodes.length ∧
      0 < s1.nodes.length ∧
      List.Perm (entryList s1.nodes) (entryList m.nodes.nodes) ∧
      s1.numberOfItems + 1 ≤ numberBeforeResize s1.nodes.length := by
  obtain ⟨hpath, hnd, hcnt, hload, hn⟩ := hInv
  by_cases hcap : m.nodes.capacity ≤ m.len
  · have hcnteq : m.nodes.numberOfItems =
        numberBeforeResize m.nodes.nodes.length := by
      have : m.nodes.capacity = numberBeforeResize m.nodes.nodes.length := rfl
      have hle : numberBeforeResize m.nodes.nodes.length ≤
          m.nodes.numberOfItems := by
        rw [← this]
        exact hcap
      omega
    have hfit : (entryList m.nodes.nodes).length ≤
        m.nodes.nodes.length * 2 := by
      have := threshold_lt m.nodes.nodes.length hn
      omega
    obtain ⟨hl, hp, hk, hpm, hc⟩ :=
      resizedTo_spec hK (by omega : 0 < m.nodes.nodes.length * 2) hnd hfit
    refine ⟨m.nodes.resizedTo hash (m.nodes.nodes.length * 2), ?_, hp, hk,
      ?_, ?_, ?_, hpm, ?_⟩
    · rw [insert_absent_resize hloc hcap]
      have hres : HashMap.resize hash m (m.nodes.backingVecSize * 2) =
          (⟨m.nodes.resizedTo hash (m.nodes.nodes.length * 2)⟩ :
            HashMap K V) := by
        rw [HashMap.resize, if_pos]
        · rfl
        · show m.nodes.nodes.length < m.nodes.backingVecSize * 2
          show m.nodes.nodes.length < m.nodes.nodes.length * 2
          omega
      rw [hres]
    · rw [hc, hpm.length_eq]
    · rw [hpm.length_eq, hl, ← hcnt]
      have := threshold_lt m.nodes.nodes.length hn
      omega
    · rw [hl]; omega
    · rw [hc, hl, ← hcnt, hcnteq]
      exact threshold_double m.nodes.nodes.length hn
  · refine ⟨m.nodes, ?_, hpath, hnd, hcnt, ?_, hn, List.Perm.refl _, ?_⟩
    · rw [insert_absent_noresize hloc hcap]
    · have hltc : m.nodes.numberOfItems <
          numberBeforeResize m.nodes.nodes.length := by
        have : ¬ numberBeforeResize m.nodes.nodes.length ≤
            m.nodes.numberOfItems := hcap
        omega
      have := threshold_lt m.nodes.nodes.length hn
      omega
    · have : ¬ numberBeforeResize m.nodes.nodes.length ≤
          m.nodes.numberOfItems := hcap
      omega

/-- The stored entries after inserting an absent key are the old ones plus
the new pair. -/
theorem entryList_insert_absent (hK : KeyHyps keq hash) {m : HashMap K V}
    {key : K} {value : V} (hInv : MapInv keq hash m)
    (hloc : m.nodes.location keq key (hash key) = none) :
    List.Perm (entryList (HashMap.insert keq hash m key value).2.nodes.nodes)
      ((key, value) :: entryList m.nodes.nodes) := by
  obtain ⟨s1, heq, hp, hk, hc, hlt, hn1, hpm, hload⟩ := insert_stage hK hInv hloc
  rw [heq]
  refine (insertNew_perm hn1 hlt).trans ?_
  exact hpm.cons (key, value)

/-- `insert` preserves the map invariant. -/
theorem mapInv_insert (hK : KeyHyps keq hash) {m : HashMap K V}
    (hInv : MapInv keq hash m) (key : K) (value : V) :
    MapInv keq hash (HashMap.insert keq hash m key value).2 := by
  cases hloc : m.nodes.location keq key (hash key) with
  | some loc =>
    obtain ⟨hpath, hnd, hcnt, hload, hn⟩ := hInv
    obtain ⟨k0, v0, d0, hslot, hkeq⟩ := locateGo_some hloc
    rw [insert_present hloc]
    rw [NodeStorage.replaceAt, replaceAtLocation_eq hslot]
    have hperm1 : List.Perm (entryList m.nodes.nodes)
        ((k0, v0) :: entryList (m.nodes.nodes.set loc Slot.empty)) :=
      entryList_set_empty hslot
    have hperm2 : List.Perm
        (entryList (m.nodes.nodes.set loc (Slot.occupied k0 value d0)))
        ((k0, value) :: entryList (m.nodes.nodes.set loc Slot.empty)) :=
      entryList_replace hslot
    refine ⟨pathInv_replace hpath hslot, keyNodup_replace hK hnd hslot,
      ?_, ?_, ?_⟩
    · show m.nodes.numberOfItems = _
      rw [hcnt, hperm1.length_eq, hperm2.length_eq]
      simp
    · show m.nodes.numberOfItems ≤ _
      rw [List.length_set]
      exact hload
    · show 0 < (m.nodes.nodes.set loc (Slot.occupied k0 value d0)).length
      rw [List.length_set]
      exact hn
  | none =>
    obtain ⟨s1, heq, hp, hk, hc, hlt, hn1, hpm, hload⟩ :=
      insert_stage hK hInv hloc
    have hfresh : ∀ kv ∈ entryList s1.nodes, keq key kv.1 = false := by
      intro kv hkv
      have hkv2 : kv ∈ entryList m.nodes.nodes := hpm.mem_iff.1 hkv
      obtain ⟨k1, v1⟩ := kv
      obtain ⟨p, d, hslot⟩ := mem_entryList.1 hkv2
      obtain ⟨hpath, -, -, -, -⟩ := hInv
      exact keq_false_symm hK
        ((location_eq_none_iff hK hpath).1 hloc p k1 v1 d hslot)
    have hperm : List.Perm
        (entryList (s1.insertNew key value (hash key)).1.nodes)
        ((key, value) :: entryList s1.nodes) := insertNew_perm hn1 hlt
    rw [heq]
    refine ⟨insertNew_pathInv hn1 hp, insertNew_keyNodup hK hn1 hlt hk hfresh,
      ?_, ?_, ?_⟩
    · show s1.numberOfItems + 1 = _
      rw [hperm.length_eq]
      simp [hc]
    · show s1.numberOfItems + 1 ≤
        numberBeforeResize (s1.insertNew key value (hash key)).1.nodes.length
      rw [insertNew_nodes_length]
      exact hload
    · show 0 < (s1.insertNew key value (hash key)).1.nodes.length
      rw [insertNew_nodes_length]
      exact hn1

/-- The length after `insert`: unchanged for a present key, one more for an
absent key. -/
theorem len_insert (hK : KeyHyps keq hash) {m : HashMap K V}
    (hInv : MapInv keq hash m) (key : K) (value : V) :
    (HashMap.insert keq hash m key value).2.len =
      if m.nodes.location keq key (hash key) = none then m.len + 1
      else m.len := by
  cases hloc : m.nodes.location keq key (hash key) with
  | some loc =>
    rw [insert_present hloc, if_neg (by simp)]
    rfl
  | none =>
    obtain ⟨s1, heq, hp, hk, hc, hlt, hn1, hpm, hload⟩ :=
      insert_stage hK hInv hloc
    rw [if_pos rfl, heq]
    show s1.numberOfItems + 1 = m.nodes.numberOfItems + 1
    obtain ⟨-, -, hcnt, -, -⟩ := hInv
    rw [hc, hpm.length_eq, hcnt]

/-- Storages with permutation-equal entries and valid invariants answer
every `get` identically. -/
theorem get_congr_entries (hK : KeyHyps keq hash) {s s' : NodeStorage K V}
    (hpath : pathInv hash s.nodes) (hpath' : pathInv hash s'.nodes)
    (hnd' : keyNodup keq s'.nodes)
    (hpm : List.Perm (entryList s'.nodes) (entryList s.nodes)) (k' : K) :
    HashMap.get keq hash ⟨s'⟩ k' = HashMap.get keq hash ⟨s⟩ k' := by
  cases hg : HashMap.get keq hash ⟨s⟩ k' with
  | some v =>
    obtain ⟨p, k0, d0, hslot, hkeq⟩ := get_some_sound hg
    have hmem : (k0, v) ∈ entryList s'.nodes :=
      hpm.mem_iff.2 (mem_entryList.2 ⟨p, d0, hslot⟩)
    obtain ⟨p2, d2, hslot2⟩ := mem_entryList.1 hmem
    exact get_of_entry hK hpath' hnd' hslot2 hkeq
  | none =>
    rw [get_eq_none_iff hK hpath']
    intro p k0 v0 d0 hslot'
    have hmem : (k0, v0) ∈ entryList s.nodes :=
      hpm.mem_iff.1 (mem_entryList.2 ⟨p, d0, hslot'⟩)
    obtain ⟨p1, d1, hslot1⟩ := mem_entryList.1 hmem
    exact (get_eq_none_iff hK hpath).1 hg p1 k0 v0 d1 hslot1

/-- `get_key_value` successes decompose into a located occupied slot. -/
theorem getKeyValue_some_elim {m : HashMap K V} {key k0 : K} {v0 : V}
    (h : HashMap.getKeyValue keq hash m key = some (k0, v0)) :
    ∃ loc d0, m.nodes.location keq key (hash key) = some loc ∧
      m.nodes.nodes.getD loc Slot.empty = Slot.occupied k0 v0 d0 ∧
      keq k0 key = true := by
  rw [HashMap.getKeyValue] at h
  cases hloc : m.nodes.location keq key (hash key) with
  | none => rw [hloc] at h; exact absurd h (by simp)
  | some loc =>
    rw [hloc] at h
    obtain ⟨k1, v1, d1, hslot1, hkeq1⟩ := locateGo_some hloc
    have h2 : (m.nodes.nodes.getD loc Slot.empty).keyValueRef =
        some (k0, v0) := by
      simpa using h
    rw [hslot1] at h2
    obtain ⟨rfl, rfl⟩ : k1 = k0 ∧ v1 = v0 := by
      simpa [Slot.keyValueRef] using h2
    exact ⟨loc, d1, rfl, hslot1, hkeq1⟩

/-- The full `get` characterization of `insert`: the inserted key reads the
new value; every other key reads as before. -/
theorem get_insert (hK : KeyHyps keq hash) {m : HashMap K V}
    (hInv : MapInv keq hash m) (key : K) (value : V) (k' : K) :
    HashMap.get keq hash (HashMap.insert keq hash m key value).2 k' =
      if keq key k' = true then some value
      else HashMap.get keq hash m k' := by
  have hInv' := mapInv_insert hK hInv key value
  obtain ⟨hpath', hnd', -, -, -⟩ := hInv'
  obtain ⟨hpath, hnd, hcnt, hload, hn⟩ := hInv
  cases hloc : m.nodes.location keq key (hash key) with
  | some loc =>
    obtain ⟨k0, v0, d0, hslot, hkeq0⟩ := locateGo_some hloc
    have hplt : loc < m.nodes.nodes.length := lt_length_of_getD_occupied hslot
    rw [insert_present hloc] at hpath' hnd' ⊢
    rw [NodeStorage.replaceAt, replaceAtLocation_eq hslot] at hpath' hnd' ⊢
    have hslot' : (m.nodes.nodes.set loc
        (Slot.occupied k0 value d0)).getD loc Slot.empty =
        Slot.occupied k0 value d0 := getD_set_self hplt _
    by_cases hcond : keq key k' = true
    · rw [if_pos hcond]
      exact get_of_entry hK hpath' hnd' hslot'
        (hK.trans k0 key k' hkeq0 hcond)
    · rw [if_neg hcond]
      cases hg : HashMap.get keq hash m k' with
      | some v =>
        obtain ⟨p, k2, d2, hslot2, hkeq2⟩ := get_some_sound hg
        have hne : p ≠ loc := by
          intro hh
          rw [hh, hslot] at hslot2
          obtain ⟨rfl, -, -⟩ : k0 = k2 ∧ v0 = v ∧ d0 = d2 := by
            simpa using hslot2
          exact hcond (hK.trans key k0 k' (hK.symm _ _ hkeq0) hkeq2)
        have hslot2' : (m.nodes.nodes.set loc
            (Slot.occupied k0 value d0)).getD p Slot.empty =
            Slot.occupied k2 v d2 := by
          rw [getD_set_ne (fun hh => hne hh.symm)]
          exact hslot2
        exact get_of_entry hK hpath' hnd' hslot2' hkeq2
      | none =>
        rw [get_eq_none_iff hK hpath']
        intro p k2 v2 d2 hslot2
        by_cases hploc : p = loc
        · subst hploc
          rw [hslot'] at hslot2
          obtain ⟨rfl, -, -⟩ : k0 = k2 ∧ value = v2 ∧ d0 = d2 := by
            simpa using hslot2
          exact (get_eq_none_iff hK hpath).1 hg p k0 v0 d0 hslot
        · rw [getD_set_ne (fun hh => hploc hh.symm)] at hslot2
          exact (get_eq_none_iff hK hpath).1 hg p k2 v2 d2 hslot2
  | none =>
    have hperm : List.Perm
        (entryList (HashMap.insert keq hash m key value).2.nodes.nodes)
        ((key, value) :: entryList m.nodes.nodes) :=
      entryList_insert_absent hK ⟨hpath, hnd, hcnt, hload, hn⟩ hloc
    by_cases hcond : keq key k' = true
    · rw [if_pos hcond]
      have hmem : (key, value) ∈
          entryList (HashMap.insert keq hash m key value).2.nodes.nodes :=
        hperm.mem_iff.2 (by simp)
      obtain ⟨p, d, hslotR⟩ := mem_entryList.1 hmem
      exact get_of_entry hK hpath' hnd' hslotR hcond
    · rw [if_neg hcond]
      cases hg : HashMap.get keq hash m k' with
      | some v =>
        obtain ⟨p, k2, d2, hslot2, hkeq2⟩ := get_some_sound hg
        have hmem : (k2, v) ∈
            entryList (HashMap.insert keq hash m key value).2.nodes.nodes :=
          hperm.mem_iff.2 (by
            simp only [List.mem_cons]
            exact Or.inr (mem_entryList.2 ⟨p, d2, hslot2⟩))
        obtain ⟨p2, d3, hslotR⟩ := mem_entryList.1 hmem
        exact get_of_entry hK hpath' hnd' hslotR hkeq2
      | none =>
        rw [get_eq_none_iff hK hpath']
        intro p k2 v2 d2 hslotR
        have hmem := hperm.mem_iff.1 (mem_entryList.2 ⟨p, d2, hslotR⟩)
        rcases List.mem_cons.1 hmem with hhead | htail
        · obtain ⟨rfl, -⟩ : k2 = key ∧ v2 = value := by
            simpa using hhead
          exact Bool.eq_false_iff.2 hcond
        · obtain ⟨p1, d1, hslot1⟩ := mem_entryList.1 htail
          exact (get_eq_none_iff hK hpath).1 hg p1 k2 v2 d1 hslot1

end MapInsert

/-! ## Remove -/

section MapRemove

variable {K V : Type} {keq : K → K → Bool} {hash : K → Nat}

/-- The content effect of removing a present key: the returned value is the
stored one, the count drops by one, the removed key reads as absent, and the
entries lose exactly the removed pair. -/
theorem remove_present_spec (hK : KeyHyps keq hash) {m : HashMap K V}
    {key : K} {v : V} (hInv : MapInv keq hash m)
    (hv : HashMap.get keq hash m key = some v) :
    (HashMap.remove keq hash m key).1 = some v ∧
      (HashMap.remove keq hash m key).2.len + 1 = m.len ∧
      HashMap.get keq hash (HashMap.remove keq hash m key).2 key = none ∧
      (∃ k0, keq k0 key = true ∧
        List.Perm (entryList m.nodes.nodes)
          ((k0, v) :: entryList
            (HashMap.remove keq hash m key).2.nodes.nodes)) := by
  obtain ⟨hpath, hnd, hcnt, hload, hn⟩ := hInv
  have hkv : ∃ k0, HashMap.getKeyValue keq hash m key = some (k0, v) := by
    rw [HashMap.get] at hv
    cases hgkv : HashMap.getKeyValue keq hash m key with
    | none => rw [hgkv] at hv; exact absurd hv (by simp)
    | some kv =>
      rw [hgkv] at hv
      obtain ⟨k0, v0⟩ := kv
      obtain rfl : v0 = v := by simpa using hv
      exact ⟨k0, rfl⟩
  obtain ⟨k0, hgkv⟩ := hkv
  obtain ⟨loc, d0, hloc, hslot, hkeq⟩ := getKeyValue_some_elim hgkv
  have hplt : loc < m.nodes.nodes.length := lt_length_of_getD_occupied hslot
  rw [remove_some hloc hslot]
  have hgap : (m.nodes.nodes.set loc Slot.empty).getD loc Slot.empty =
      Slot.empty := getD_set_self hplt _
  have hsh : List.Perm
      (entryList (backShiftGo (m.nodes.nodes.set loc Slot.empty) loc
        m.nodes.nodes.length))
      (entryList (m.nodes.nodes.set loc Slot.empty)) ∧
      (backShiftGo (m.nodes.nodes.set loc Slot.empty) loc
        m.nodes.nodes.length).length =
        (m.nodes.nodes.set loc Slot.empty).length :=
    backShiftGo_perm (by simpa using hplt) hgap
  obtain ⟨hshperm, hshlen⟩ := hsh
  have hperm : List.Perm (entryList m.nodes.nodes)
      ((k0, v) :: entryList (backShiftGo (m.nodes.nodes.set loc Slot.empty)
        loc m.nodes.nodes.length)) :=
    (entryList_set_empty hslot).trans (hshperm.symm.cons (k0, v))
  refine ⟨rfl, ?_, ?_, ⟨k0, hkeq, hperm⟩⟩
  · show m.nodes.numberOfItems - 1 + 1 = m.nodes.numberOfItems
    have hpos : 0 < m.nodes.numberOfItems := by
      rw [hcnt, hperm.length_eq]
      simp
    omega
  · cases hg : HashMap.get keq hash
      (⟨⟨backShiftGo (m.nodes.nodes.set loc Slot.empty) loc
          m.nodes.nodes.length, m.nodes.numberOfItems - 1⟩⟩ : HashMap K V)
      key with
    | none => rfl
    | some v2 =>
      obtain ⟨p, k2, d2, hslot2, hkeq2⟩ := get_some_sound hg
      have hmem2 : (k2, v2) ∈ entryList (backShiftGo
          (m.nodes.nodes.set loc Slot.empty) loc m.nodes.nodes.length) :=
        mem_entryList.2 ⟨p, d2, hslot2⟩
      have hnd2 : List.Pairwise (fun a b : K × V => keq a.1 b.1 = false)
          ((k0, v) :: entryList (backShiftGo
            (m.nodes.nodes.set loc Slot.empty) loc
            m.nodes.nodes.length)) :=
        (hperm.pairwise_iff (fun hxy => keq_false_symm hK hxy)).1 hnd
      rw [List.pairwise_cons] at hnd2
      have hfalse := hnd2.1 (k2, v2) hmem2
      have htrue : keq k0 k2 = true :=
        hK.trans k0 key k2 hkeq (hK.symm _ _ hkeq2)
      rw [htrue] at hfalse
      exact absurd hfalse (by simp)

end MapRemove

/-! ## Iterators -/

section Iterators

variable {K V : Type} {keq : K → K → Bool} {hash : K → Nat}

theorem iterNextGo_succ {l : List (Slot K V)} {atIdx nf f : Nat} :
    iterNextGo l atIdx nf (f + 1) =
      match l.getD atIdx Slot.empty with
      | .empty => iterNextGo l (atIdx + 1) nf f
      | .occupied k v _ => some ((k, v), ⟨atIdx + 1, nf + 1⟩) := rfl

theorem iterNextGo_step_empty {l : List (Slot K V)} {atIdx nf f : Nat}
    (h : l.getD atIdx Slot.empty = Slot.empty) :
    iterNextGo l atIdx nf (f + 1) = iterNextGo l (atIdx + 1) nf f := by
  rw [iterNextGo_succ, h]

theorem iterNextGo_step_occupied {l : List (Slot K V)} {atIdx nf f : Nat}
    {k : K} {v : V} {d : Nat}
    (h : l.getD atIdx Slot.empty = Slot.occupied k v d) :
    iterNextGo l atIdx nf (f + 1) = some ((k, v), ⟨atIdx + 1, nf + 1⟩) := by
  rw [iterNextGo_succ, h]

/-- The scan misses exactly when no occupied slot remains at or after the
cursor. -/
theorem iterNextGo_none {l : List (Slot K V)} :
    ∀ f atIdx nf, f = l.length - atIdx → entryList (l.drop atIdx) = [] →
      iterNextGo l atIdx nf f = none := by
  intro f
  induction f with
  | zero => intro atIdx nf hf he; rfl
  | succ f ih =>
    intro atIdx nf hf he
    have hat : atIdx < l.length := by omega
    rw [List.drop_eq_getElem_cons hat] at he
    cases hslot : l.getD atIdx Slot.empty with
    | empty =>
      rw [iterNextGo_step_empty hslot]
      rw [getD_eq_getElem hat] at hslot
      rw [hslot, entryList_cons_empty] at he
      exact ih (atIdx + 1) nf (by omega) he
    | occupied k v d =>
      rw [getD_eq_getElem hat] at hslot
      rw [hslot, entryList_cons_occupied] at he
      exact absurd he (by simp)

/-- The scan yields exactly the first remaining entry and moves the cursor
just past its slot. -/
theorem iterNextGo_some {l : List (Slot K V)} :
    ∀ f atIdx nf (k : K) (v : V) es, f = l.length - atIdx →
      entryList (l.drop atIdx) = (k, v) :: es →
      ∃ at2, iterNextGo l atIdx nf f = some ((k, v), ⟨at2, nf + 1⟩) ∧
        entryList (l.drop at2) = es ∧ atIdx < at2 ∧ at2 ≤ l.length := by
  intro f
  induction f with
  | zero =>
    intro atIdx nf k v es hf he
    rw [List.drop_eq_nil_of_le (by omega)] at he
    exact absurd he (by simp)
  | succ f ih =>
    intro atIdx nf k v es hf he
    have hat : atIdx < l.length := by
      by_contra hge
      rw [List.drop_eq_nil_of_le (by omega)] at he
      exact absurd he (by simp)
    rw [List.drop_eq_getElem_cons hat] at he
    cases hslot : l.getD atIdx Slot.empty with
    | empty =>
      rw [getD_eq_getElem hat] at hslot
      rw [hslot, entryList_cons_empty] at he
      obtain ⟨at2, hnext, hes, hlt, hle⟩ := ih (atIdx + 1) nf k v es
        (by omega) he
      refine ⟨at2, ?_, hes, by omega, hle⟩
      rw [iterNextGo_step_empty (by rw [getD_eq_getElem hat]; exact hslot)]
      exact hnext
    | occupied k0 v0 d0 =>
      have hslot2 := hslot
      rw [getD_eq_getElem hat] at hslot2
      rw [hslot2, entryList_cons_occupied] at he
      obtain ⟨hk, hes⟩ : ((k0, v0) : K × V) = (k, v) ∧
          entryList (l.drop (atIdx + 1)) = es := by
        exact ⟨(List.cons.injEq _ _ _ _ ▸ he).1, (List.cons.injEq _ _ _ _ ▸ he).2⟩
      obtain ⟨rfl, rfl⟩ : k0 = k ∧ v0 = v := by simpa using hk
      exact ⟨atIdx + 1, iterNextGo_step_occupied hslot, hes, by omega,
        by omega⟩

theorem iterForceGo_succ {m : HashMap K V} {it : IterState} {fuel : Nat} :
    HashMap.iterForceGo m it (fuel + 1) =
      match m.iterNext it with
      | none => []
      | some (kv, it') => kv :: HashMap.iterForceGo m it' fuel := rfl

/-- The borrowing run from any cursor yields exactly the remaining entries,
in position order. -/
theorem iterForceGo_eq {m : HashMap K V} :
    ∀ (es : List (K × V)) (fuel atIdx nf : Nat),
      entryList (m.nodes.nodes.drop atIdx) = es → es.length ≤ fuel →
      HashMap.iterForceGo m ⟨atIdx, nf⟩ fuel = es := by
  intro es
  induction es with
  | nil =>
    intro fuel atIdx nf he hfl
    cases fuel with
    | zero => rfl
    | succ fuel =>
      rw [iterForceGo_succ]
      rw [show m.iterNext ⟨atIdx, nf⟩ =
        iterNextGo m.nodes.nodes atIdx nf
          (m.nodes.nodes.length - atIdx) from rfl]
      rw [iterNextGo_none (m.nodes.nodes.length - atIdx) atIdx nf rfl he]
  | cons e es ih =>
    intro fuel atIdx nf he hfl
    obtain ⟨ek, ev⟩ := e
    cases fuel with
    | zero => simp at hfl
    | succ fuel =>
      obtain ⟨at2, hnext, hes, hlt, hle⟩ :=
        iterNextGo_some (m.nodes.nodes.length - atIdx) atIdx nf ek ev es
          rfl he
      rw [iterForceGo_succ]
      rw [show m.iterNext ⟨atIdx, nf⟩ =
        iterNextGo m.nodes.nodes atIdx nf
          (m.nodes.nodes.length - atIdx) from rfl]
      rw [hnext]
      show (ek, ev) :: m.iterForceGo ⟨at2, nf + 1⟩ fuel = (ek, ev) :: es
      rw [ih fuel at2 (nf + 1) hes (by simp only [List.length_cons] at hfl; omega)]

/-- A full run of the borrowing iterator yields the entry list. -/
theorem iterYields_eq (m : HashMap K V) :
    m.iterYields = entryList m.nodes.nodes := by
  rw [HashMap.iterYields, HashMap.iterStart]
  refine iterForceGo_eq (entryList m.nodes.nodes) m.nodes.nodes.length 0 0
    (by rw [List.drop_zero]) ?_
  exact List.length_filterMap_le _ _

/-- The cursor balance: found plus remaining equals the total, at every
reachable borrowing-iterator state. -/
theorem iterAdvance_inv (m : HashMap K V) :
    ∀ (j : Nat) (it : IterState),
      it.numFound + (entryList (m.nodes.nodes.drop it.atIdx)).length =
        (entryList m.nodes.nodes).length →
      (m.iterAdvance it j).numFound +
        (entryList (m.nodes.nodes.drop (m.iterAdvance it j).atIdx)).length =
        (entryList m.nodes.nodes).length := by
  intro j
  induction j with
  | zero => intro it h; exact h
  | succ j ih =>
    intro it h
    rw [HashMap.iterAdvance]
    cases he : entryList (m.nodes.nodes.drop it.atIdx) with
    | nil =>
      rw [show m.iterNext it =
        iterNextGo m.nodes.nodes it.atIdx it.numFound
          (m.nodes.nodes.length - it.atIdx) from rfl]
      rw [iterNextGo_none (m.nodes.nodes.length - it.atIdx) it.atIdx
        it.numFound rfl he]
      exact h
    | cons e es =>
      obtain ⟨ek, ev⟩ := e
      obtain ⟨at2, hnext, hes, hlt, hle⟩ :=
        iterNextGo_some (m.nodes.nodes.length - it.atIdx) it.atIdx
          it.numFound ek ev es rfl he
      rw [show m.iterNext it =
        iterNextGo m.nodes.nodes it.atIdx it.numFound
          (m.nodes.nodes.length - it.atIdx) from rfl]
      rw [hnext]
      refine ih ⟨at2, it.numFound + 1⟩ ?_
      show it.numFound + 1 + (entryList (m.nodes.nodes.drop at2)).length = _
      rw [hes]
      rw [he] at h
      simp only [List.length_cons] at h
      omega

/-- Size-hint exactness for the borrowing iterator at every reachable
state: the declared remaining count equals both `len - found` and the exact
number of items a full further run yields; moreover both components of the
hint agree. -/
theorem iterSizeHint_exact {m : HashMap K V}
    (hcnt : m.nodes.numberOfItems = (entryList m.nodes.nodes).length)
    (j : Nat) :
    (m.iterSizeHint (m.iterAdvance HashMap.iterStart j)).1 =
      (HashMap.iterForceGo m (m.iterAdvance HashMap.iterStart j)
        m.nodes.nodes.length).length ∧
    (m.iterSizeHint (m.iterAdvance HashMap.iterStart j)).2 =
      some (m.iterSizeHint (m.iterAdvance HashMap.iterStart j)).1 := by
  have hinv := iterAdvance_inv m j HashMap.iterStart
    (by rw [HashMap.iterStart, List.drop_zero]; simp)
  set it := m.iterAdvance HashMap.iterStart j with hit
  have hrun : HashMap.iterForceGo m it m.nodes.nodes.length =
      entryList (m.nodes.nodes.drop it.atIdx) := by
    have : (⟨it.atIdx, it.numFound⟩ : IterState) = it := rfl
    rw [← this]
    refine iterForceGo_eq _ _ _ _ rfl ?_
    calc (entryList (m.nodes.nodes.drop it.atIdx)).length
        ≤ (m.nodes.nodes.drop it.atIdx).length :=
          List.length_filterMap_le _ _
      _ ≤ m.nodes.nodes.length := by
          rw [List.length_drop]
          omega
  constructor
  · rw [hrun]
    show m.nodes.numberOfItems - it.numFound = _
    rw [hcnt]
    omega
  · rfl

theorem iterOwnedNextGo_succ {l : List (Slot K V)} {atIdx nf f : Nat} :
    iterOwnedNextGo l atIdx nf (f + 1) =
      match l.getD atIdx Slot.empty with
      | .empty => iterOwnedNextGo l (atIdx + 1) nf f
      | .occupied k v _ =>
        some ((k, v), (l.set atIdx Slot.empty, atIdx + 1, nf + 1)) := rfl

theorem iterOwnedNextGo_none {l : List (Slot K V)} :
    ∀ f atIdx nf, f = l.length - atIdx → entryList (l.drop atIdx) = [] →
      iterOwnedNextGo l atIdx nf f = none := by
  intro f
  induction f with
  | zero => intro atIdx nf hf he; rfl
  | succ f ih =>
    intro atIdx nf hf he
    have hat : atIdx < l.length := by omega
    rw [List.drop_eq_getElem_cons hat] at he
    cases hslot : l.getD atIdx Slot.empty with
    | empty =>
      rw [iterOwnedNextGo_succ, hslot]
      rw [getD_eq_getElem hat] at hslot
      rw [hslot, entryList_cons_empty] at he
      exact ih (atIdx + 1) nf (by omega) he
    | occupied k v d =>
      rw [getD_eq_getElem hat] at hslot
      rw [hslot, entryList_cons_occupied] at he
      exact absurd he (by simp)

theorem iterOwnedNextGo_some {l : List (Slot K V)} :
    ∀ f atIdx nf (k : K) (v : V) es, f = l.length - atIdx →
      entryList (l.drop atIdx) = (k, v) :: es →
      ∃ p, iterOwnedNextGo l atIdx nf f =
          some ((k, v), (l.set p Slot.empty, p + 1, nf + 1)) ∧
        entryList ((l.set p Slot.empty).drop (p + 1)) = es ∧
        atIdx ≤ p ∧ p < l.length := by
  intro f
  induction f with
  | zero =>
    intro atIdx nf k v es hf he
    rw [List.drop_eq_nil_of_le (by omega)] at he
    exact absurd he (by simp)
  | succ f ih =>
    intro atIdx nf k v es hf he
    have hat : atIdx < l.length := by
      by_contra hge
      rw [List.drop_eq_nil_of_le (by omega)] at he
      exact absurd he (by simp)
    rw [List.drop_eq_getElem_cons hat] at he
    cases hslot : l.getD atIdx Slot.empty with
    | empty =>
      have hslot2 := hslot
      rw [getD_eq_getElem hat] at hslot2
      rw [hslot2, entryList_cons_empty] at he
      obtain ⟨p, hnext, hes, hle, hplt⟩ := ih (atIdx + 1) nf k v es
        (by omega) he
      refine ⟨p, ?_, hes, by omega, hplt⟩
      rw [iterOwnedNextGo_succ, hslot]
      exact hnext
    | occupied k0 v0 d0 =>
      have hslot2 := hslot
      rw [getD_eq_getElem hat] at hslot2
      rw [hslot2, entryList_cons_occupied] at he
      obtain ⟨hk, hes⟩ : ((k0, v0) : K × V) = (k, v) ∧
          entryList (l.drop (atIdx + 1)) = es :=
        ⟨(List.cons.injEq _ _ _ _ ▸ he).1, (List.cons.injEq _ _ _ _ ▸ he).2⟩
      obtain ⟨rfl, rfl⟩ : k0 = k ∧ v0 = v := by simpa using hk
      refine ⟨atIdx, ?_, ?_, Nat.le_refl _, hat⟩
      · rw [iterOwnedNextGo_succ, hslot]
      · rw [show (l.set atIdx Slot.empty).drop (atIdx + 1) =
          l.drop (atIdx + 1) by
            rw [List.drop_set]
            rw [if_pos (by omega)]]
        exact hes

/-- The owned scan misses exactly when nothing remains. -/
theorem iterOwnedNext_none {st : IterOwnedState K V}
    (he : entryList (st.map.nodes.nodes.drop st.atIdx) = []) :
    HashMap.iterOwnedNext st = none := by
  rw [HashMap.iterOwnedNext,
    iterOwnedNextGo_none (st.map.nodes.nodes.length - st.atIdx) st.atIdx
      st.numFound rfl he]
  rfl

/-- The owned scan yields the first remaining entry, empties its slot,
keeps `number_of_items` untouched and advances the cursor. -/
theorem iterOwnedNext_some {st : IterOwnedState K V} {k : K} {v : V}
    {es : List (K × V)}
    (he : entryList (st.map.nodes.nodes.drop st.atIdx) = (k, v) :: es) :
    ∃ st', HashMap.iterOwnedNext st = some ((k, v), st') ∧
      entryList (st'.map.nodes.nodes.drop st'.atIdx) = es ∧
      st'.map.nodes.numberOfItems = st.map.nodes.numberOfItems ∧
      st'.numFound = st.numFound + 1 ∧
      st'.map.nodes.nodes.length = st.map.nodes.nodes.length := by
  obtain ⟨p, hnext, hes, hle, hplt⟩ :=
    iterOwnedNextGo_some (st.map.nodes.nodes.length - st.atIdx) st.atIdx
      st.numFound k v es rfl he
  refine ⟨⟨⟨⟨st.map.nodes.nodes.set p Slot.empty,
    st.map.nodes.numberOfItems⟩⟩, p + 1, st.numFound + 1⟩, ?_, hes, rfl,
    rfl, by simp⟩
  rw [HashMap.iterOwnedNext, hnext]
  rfl

theorem iterOwnedForceGo_succ {st : IterOwnedState K V} {fuel : Nat} :
    HashMap.iterOwnedForceGo st (fuel + 1) =
      match HashMap.iterOwnedNext st with
      | none => []
      | some (kv, st') => kv :: HashMap.iterOwnedForceGo st' fuel := rfl

/-- The owned run from any state yields exactly the remaining entries. -/
theorem iterOwnedForceGo_eq :
    ∀ (es : List (K × V)) (fuel : Nat) (st : IterOwnedState K V),
      entryList (st.map.nodes.nodes.drop st.atIdx) = es →
      es.length ≤ fuel →
      HashMap.iterOwnedForceGo st fuel = es := by
  intro es
  induction es with
  | nil =>
    intro fuel st he hfl
    cases fuel with
    | zero => rfl
    | succ fuel =>
      rw [iterOwnedForceGo_succ, iterOwnedNext_none he]
  | cons e es ih =>
    intro fuel st he hfl
    obtain ⟨ek, ev⟩ := e
    cases fuel with
    | zero => simp at hfl
    | succ fuel =>
      obtain ⟨st', hnext, hes, -, -, -⟩ := iterOwnedNext_some he
      rw [iterOwnedForceGo_succ, hnext]
      show (ek, ev) :: HashMap.iterOwnedForceGo st' fuel = (ek, ev) :: es
      rw [ih fuel st' hes (by simp only [List.length_cons] at hfl; omega)]

/-- Balance at every reachable owned-iterator state: found plus remaining
equals the (unchanging) stored count, and the backing size is unchanged. -/
theorem iterOwnedAdvance_inv {L N : Nat} :
    ∀ (j : Nat) (st : IterOwnedState K V),
      st.numFound + (entryList (st.map.nodes.nodes.drop st.atIdx)).length =
          st.map.nodes.numberOfItems →
      st.map.nodes.numberOfItems = N →
      st.map.nodes.nodes.length = L →
      (HashMap.iterOwnedAdvance st j).numFound +
          (entryList ((HashMap.iterOwnedAdvance st j).map.nodes.nodes.drop
            (HashMap.iterOwnedAdvance st j).atIdx)).length =
          (HashMap.iterOwnedAdvance st j).map.nodes.numberOfItems ∧
        (HashMap.iterOwnedAdvance st j).map.nodes.numberOfItems = N ∧
        (HashMap.iterOwnedAdvance st j).map.nodes.nodes.length = L := by
  intro j
  induction j with
  | zero => intro st h hN hL; exact ⟨h, hN, hL⟩
  | succ j ih =>
    intro st h hN hL
    rw [HashMap.iterOwnedAdvance]
    cases he : entryList (st.map.nodes.nodes.drop st.atIdx) with
    | nil =>
      rw [iterOwnedNext_none he]
      exact ⟨h, hN, hL⟩
    | cons e es =>
      obtain ⟨ek, ev⟩ := e
      obtain ⟨st', hnext, hes, hnum, hnf, hlen⟩ := iterOwnedNext_some he
      rw [hnext]
      refine ih st' ?_ (by rw [hnum, hN]) (by rw [hlen, hL])
      rw [hes, hnum, hnf]
      rw [he] at h
      simp only [List.length_cons] at h
      omega

/-- Size-hint exactness for the owning iterator at every reachable state. -/
theorem iterOwnedSizeHint_exact {m : HashMap K V}
    (hcnt : m.nodes.numberOfItems = (entryList m.nodes.nodes).length)
    (j : Nat) :
    (HashMap.iterOwnedSizeHint
        (HashMap.iterOwnedAdvance (HashMap.iterOwnedStart m) j)).1 =
      (HashMap.iterOwnedForceGo
        (HashMap.iterOwnedAdvance (HashMap.iterOwnedStart m) j)
        m.nodes.nodes.length).length ∧
    (HashMap.iterOwnedSizeHint
        (HashMap.iterOwnedAdvance (HashMap.iterOwnedStart m) j)).2 =
      some (HashMap.iterOwnedSizeHint
        (HashMap.iterOwnedAdvance (HashMap.iterOwnedStart m) j)).1 := by
  obtain ⟨hbal, hN, hL⟩ := iterOwnedAdvance_inv j (HashMap.iterOwnedStart m)
    (by
      show (0 : Nat) + (entryList (m.nodes.nodes.drop 0)).length =
        m.nodes.numberOfItems
      rw [List.drop_zero, hcnt]
      omega)
    rfl rfl
  set st := HashMap.iterOwnedAdvance (HashMap.iterOwnedStart m) j with hst
  have hrun : HashMap.iterOwnedForceGo st m.nodes.nodes.length =
      entryList (st.map.nodes.nodes.drop st.atIdx) := by
    refine iterOwnedForceGo_eq _ _ _ rfl ?_
    calc (entryList (st.map.nodes.nodes.drop st.atIdx)).length
        ≤ (st.map.nodes.nodes.drop st.atIdx).length :=
          List.length_filterMap_le _ _
      _ ≤ st.map.nodes.nodes.length := by
          rw [List.length_drop]
          omega
      _ = m.nodes.nodes.length := hL
  constructor
  · rw [hrun]
    show st.map.nodes.numberOfItems - st.numFound = _
    omega
  · rfl

end Iterators

/-! ## Fresh maps, concrete keys, and insert sequences -/

section Sequences

variable {K V : Type} {keq : K → K → Bool} {hash : K → Nat}

/-- A fresh map of any positive backing size satisfies the invariant. -/
theorem mapInv_withSize (size : Nat) (hs : 0 < size) :
    MapInv keq hash (HashMap.withSize size : HashMap K V) := by
  refine ⟨?_, ?_, ?_, ?_, ?_⟩
  · intro p hp
    rw [slotPathOk]
    show slotPathOkAux hash _ p
      ((List.replicate size Slot.empty).getD p Slot.empty)
    rw [getD_replicate_empty]
    exact trivial
  · show List.Pairwise _ (entryList (List.replicate size Slot.empty))
    rw [entryList_replicate]
    exact List.Pairwise.nil
  · show (0 : Nat) = (entryList (List.replicate size Slot.empty)).length
    rw [entryList_replicate]
    rfl
  · exact Nat.zero_le _
  · show 0 < (List.replicate size (Slot.empty : Slot K V)).length
    simpa using hs

/-- A fresh map answers no query. -/
theorem get_withSize_none (size : Nat) (key : K) :
    HashMap.get keq hash (HashMap.withSize size : HashMap K V) key =
      none := by
  have hloc : NodeStorage.location keq
      ((HashMap.withSize size : HashMap K V)).nodes key (hash key) =
      none := by
    rw [NodeStorage.location]
    cases size with
    | zero => rfl
    | succ n => exact locateGo_step_empty getD_replicate_empty
  rw [HashMap.get, HashMap.getKeyValue, hloc]
  rfl

theorem natKeyHyps : KeyHyps natKeq natHash := by
  refine ⟨?_, ?_, ?_, ?_⟩
  · intro k
    simp [natKeq]
  · intro a b h
    simp only [natKeq, beq_iff_eq] at h ⊢
    omega
  · intro a b c h1 h2
    simp only [natKeq, beq_iff_eq] at h1 h2 ⊢
    omega
  · intro a b h
    simp only [natKeq, beq_iff_eq] at h
    simp [natHash, h]

theorem pairKeyHyps : KeyHyps pairKeq pairHash := by
  refine ⟨?_, ?_, ?_, ?_⟩
  · intro k
    simp [pairKeq]
  · intro a b h
    simp only [pairKeq, beq_iff_eq] at h ⊢
    omega
  · intro a b c h1 h2
    simp only [pairKeq, beq_iff_eq] at h1 h2 ⊢
    omega
  · intro a b h
    simp only [pairKeq, beq_iff_eq] at h
    simp [pairHash, h]

/-- `keq`-equal queries read identically. -/
theorem get_keq_congr (hK : KeyHyps keq hash) {m : HashMap K V} {k0 k : K}
    (h : keq k0 k = true) :
    HashMap.get keq hash m k0 = HashMap.get keq hash m k := by
  rw [HashMap.get, HashMap.get, HashMap.getKeyValue, HashMap.getKeyValue,
    NodeStorage.location, NodeStorage.location, locateGo_congr hK h]

/-- The invariant survives any insertion sequence. -/
theorem mapInv_insertAll (hK : KeyHyps keq hash) {m : HashMap K V}
    (hInv : MapInv keq hash m) (l : List (K × V)) :
    MapInv keq hash (insertAll keq hash m l) := by
  induction l generalizing m with
  | nil => exact hInv
  | cons e t ih =>
    rw [insertAll, List.foldl_cons]
    exact ih (mapInv_insert hK hInv e.1 e.2)

/-- Later insertions of unrelated keys do not disturb a query. -/
theorem get_insertAll_fresh (hK : KeyHyps keq hash) {m : HashMap K V}
    (hInv : MapInv keq hash m) {l : List (K × V)} {k' : K}
    (hfresh : ∀ kv ∈ l, keq kv.1 k' = false) :
    HashMap.get keq hash (insertAll keq hash m l) k' =
      HashMap.get keq hash m k' := by
  induction l generalizing m with
  | nil => rfl
  | cons e t ih =>
    have hfold : insertAll keq hash m (e :: t) =
        insertAll keq hash (HashMap.insert keq hash m e.1 e.2).2 t := rfl
    rw [hfold]
    rw [ih (mapInv_insert hK hInv e.1 e.2)
      (fun kv hkv => hfresh kv (by simp [hkv]))]
    rw [get_insert hK hInv e.1 e.2 k',
      if_neg (by simp [hfresh e (by simp)])]

/-- Round-trip over a distinct-key insertion sequence: every inserted pair
is readable afterwards. -/
theorem get_insertAll_mem (hK : KeyHyps keq hash) {m : HashMap K V}
    (hInv : MapInv keq hash m) {l : List (K × V)}
    (hpair : List.Pairwise (fun a b : K × V => keq a.1 b.1 = false) l)
    {k : K} {v : V} (hmem : (k, v) ∈ l) :
    HashMap.get keq hash (insertAll keq hash m l) k = some v := by
  induction l generalizing m with
  | nil => exact absurd hmem (List.not_mem_nil _)
  | cons e t ih =>
    rw [List.pairwise_cons] at hpair
    rcases List.mem_cons.1 hmem with hhead | htail
    · obtain rfl : e = (k, v) := hhead.symm
      have hfold : insertAll keq hash m ((k, v) :: t) =
          insertAll keq hash (HashMap.insert keq hash m k v).2 t := rfl
      rw [hfold]
      rw [get_insertAll_fresh hK (mapInv_insert hK hInv k v)
        (fun kv hkv => keq_false_symm hK (hpair.1 kv hkv))]
      rw [get_insert hK hInv k v k, if_pos (hK.refl k)]
    · have hfold : insertAll keq hash m (e :: t) =
          insertAll keq hash (HashMap.insert keq hash m e.1 e.2).2 t := rfl
      rw [hfold]
      exact ih (mapInv_insert hK hInv e.1 e.2) hpair.2 htail

/-- Insertion of fresh, distinct pairs from any map builds exactly those
entries on top of the old ones. -/
theorem entryList_insertAll (hK : KeyHyps keq hash) {m : HashMap K V}
    (hInv : MapInv keq hash m) {l : List (K × V)}
    (hpair : List.Pairwise (fun a b : K × V => keq a.1 b.1 = false) l)
    (hfresh : ∀ kv ∈ l, HashMap.get keq hash m kv.1 = none) :
    List.Perm (entryList (insertAll keq hash m l).nodes.nodes)
      (l ++ entryList m.nodes.nodes) := by
  induction l generalizing m with
  | nil => exact List.Perm.refl _
  | cons e t ih =>
    rw [List.pairwise_cons] at hpair
    obtain ⟨hpath, hnd, hcnt, hload, hn⟩ := hInv
    have hloc : m.nodes.location keq e.1 (hash e.1) = none := by
      have := hfresh e (by simp)
      rw [HashMap.get, HashMap.getKeyValue] at this
      cases hl : m.nodes.location keq e.1 (hash e.1) with
      | none => rfl
      | some loc =>
        rw [hl] at this
        obtain ⟨k1, v1, d1, hslot1, -⟩ := locateGo_some hl
        have this2 : ((m.nodes.nodes.getD loc Slot.empty).keyValueRef).map
            Prod.snd = none := by simpa using this
        rw [hslot1] at this2
        exact absurd this2 (by simp [Slot.keyValueRef])
    have hperm1 : List.Perm
        (entryList (HashMap.insert keq hash m e.1 e.2).2.nodes.nodes)
        ((e.1, e.2) :: entryList m.nodes.nodes) :=
      entryList_insert_absent hK ⟨hpath, hnd, hcnt, hload, hn⟩ hloc
    have hfresh2 : ∀ kv ∈ t,
        HashMap.get keq hash (HashMap.insert keq hash m e.1 e.2).2 kv.1 =
          none := by
      intro kv hkv
      rw [get_insert hK ⟨hpath, hnd, hcnt, hload, hn⟩ e.1 e.2 kv.1,
        if_neg (by simp [hpair.1 kv hkv])]
      exact hfresh kv (by simp [hkv])
    have hfold : insertAll keq hash m (e :: t) =
        insertAll keq hash (HashMap.insert keq hash m e.1 e.2).2 t := rfl
    rw [hfold]
    refine (ih (mapInv_insert hK ⟨hpath, hnd, hcnt, hload, hn⟩ e.1 e.2)
      hpair.2 hfresh2).trans ?_
    refine (List.Perm.append_left t hperm1).trans ?_
    have : (e.1, e.2) = e := rfl
    rw [this]
    exact List.perm_middle

end Sequences

/-! ## Capacity behaviour, resize preservation, map equality, entry API -/

section Remaining

variable {K V : Type} {keq : K → K → Bool} {hash : K → Nat}

/-- The backing size never shrinks across one public mutating command. -/
theorem applyOp_backing_mono (m : HashMap K V) (op : MapOp K V) :
    m.backingVecSize ≤ (applyOp keq hash m op).backingVecSize := by
  cases op with
  | ins k v =>
    rw [applyOp, insert_backing]
    by_cases hc : m.nodes.location keq k (hash k) = none ∧
        m.nodes.capacity ≤ m.len ∧ 0 < m.nodes.nodes.length
    · rw [if_pos hc]
      show m.nodes.nodes.length ≤ m.nodes.nodes.length * 2
      omega
    · rw [if_neg hc]
      exact Nat.le_refl _
  | rem k =>
    rw [applyOp, remove_backing]
    exact Nat.le_refl _

/-- The backing size, and hence `capacity()`, is monotone across every
sequence of inserts and removes. -/
theorem applyOps_backing_mono (m : HashMap K V) (ops : List (MapOp K V)) :
    m.backingVecSize ≤ (applyOps keq hash m ops).backingVecSize ∧
      m.capacity ≤ (applyOps keq hash m ops).capacity := by
  have hmain : m.backingVecSize ≤
      (applyOps keq hash m ops).backingVecSize := by
    induction ops generalizing m with
    | nil => exact Nat.le_refl _
    | cons op ops ih =>
      have hfold : applyOps keq hash m (op :: ops) =
          applyOps keq hash (applyOp keq hash m op) ops := rfl
      rw [hfold]
      exact Nat.le_trans (applyOp_backing_mono m op)
        (ih (applyOp keq hash m op))
  refine ⟨hmain, ?_⟩
  show numberBeforeResize m.nodes.backingVecSize ≤
    numberBeforeResize (applyOps keq hash m ops).nodes.backingVecSize
  rw [numberBeforeResize, numberBeforeResize]
  exact Nat.div_le_div_right (Nat.mul_le_mul_right 85 hmain)

/-- A growing resize loses no entry: every query reads the same value
afterwards. -/
theorem get_resize (hK : KeyHyps keq hash) {m : HashMap K V}
    (hInv : MapInv keq hash m) {newSize : Nat}
    (hge : m.nodes.nodes.length ≤ newSize) (k' : K) :
    HashMap.get keq hash (HashMap.resize hash m newSize) k' =
      HashMap.get keq hash m k' := by
  obtain ⟨hpath, hnd, hcnt, hload, hn⟩ := hInv
  rw [HashMap.resize]
  by_cases hlt : m.nodes.backingVecSize < newSize
  · rw [if_pos hlt]
    have hfit : (entryList m.nodes.nodes).length ≤ newSize := by
      have h1 : (entryList m.nodes.nodes).length ≤ m.nodes.nodes.length :=
        List.length_filterMap_le _ _
      omega
    obtain ⟨hl, hp, hk, hpm, hc⟩ :=
      resizedTo_spec hK (by omega : 0 < newSize) hnd hfit
    have hm : m = (⟨m.nodes⟩ : HashMap K V) := rfl
    rw [hm]
    exact get_congr_entries hK hpath hp hk hpm k'
  · rw [if_neg hlt]

theorem withCapacitySizeGo_eq (cap i : Nat) :
    HashMap.withCapacitySizeGo cap i =
      if i < 32 then
        if numberBeforeResize (2 ^ i) > cap then some (2 ^ i)
        else HashMap.withCapacitySizeGo cap (i + 1)
      else none := by
  rw [HashMap.withCapacitySizeGo]
  by_cases h : i < 32
  · rw [dif_pos h, if_pos h]
  · rw [dif_neg h, if_neg h]

/-- Characterization of the size-selection loop: the returned size is the
smallest power of two (with exponent at least the loop index) whose
threshold strictly exceeds the requested capacity. -/
theorem withCapacitySizeGo_some {cap : Nat} :
    ∀ f i s, f = 32 - i → HashMap.withCapacitySizeGo cap i = some s →
      ∃ e, i ≤ e ∧ e < 32 ∧ s = 2 ^ e ∧
        numberBeforeResize (2 ^ e) > cap ∧
        ∀ j, i ≤ j → j < e → numberBeforeResize (2 ^ j) ≤ cap := by
  intro f
  induction f with
  | zero =>
    intro i s hf h
    rw [withCapacitySizeGo_eq, if_neg (by omega)] at h
    exact absurd h (by simp)
  | succ f ih =>
    intro i s hf h
    rw [withCapacitySizeGo_eq] at h
    by_cases hi : i < 32
    · rw [if_pos hi] at h
      by_cases hcond : numberBeforeResize (2 ^ i) > cap
      · rw [if_pos hcond] at h
        obtain rfl : 2 ^ i = s := by simpa using h
        exact ⟨i, Nat.le_refl _, hi, rfl, hcond, fun j hj1 hj2 => by omega⟩
      · rw [if_neg hcond] at h
        obtain ⟨e, he1, he2, he3, he4, he5⟩ := ih (i + 1) s (by omega) h
        refine ⟨e, by omega, he2, he3, he4, ?_⟩
        intro j hj1 hj2
        rcases Nat.eq_or_lt_of_le hj1 with hji | hji
        · rw [← hji]
          omega
        · exact he5 j (by omega) hj2
    · rw [if_neg hi] at h
      exact absurd h (by simp)

/-- The loop finds a size whenever some exponent below 32 fits. -/
theorem withCapacitySizeGo_isSome {cap : Nat} :
    ∀ f i, f = 32 - i →
      (∃ j, i ≤ j ∧ j < 32 ∧ numberBeforeResize (2 ^ j) > cap) →
      (HashMap.withCapacitySizeGo cap i).isSome = true := by
  intro f
  induction f with
  | zero =>
    intro i hf hex
    obtain ⟨j, hj1, hj2, -⟩ := hex
    omega
  | succ f ih =>
    intro i hf hex
    obtain ⟨j, hj1, hj2, hj3⟩ := hex
    rw [withCapacitySizeGo_eq, if_pos (by omega)]
    by_cases hcond : numberBeforeResize (2 ^ i) > cap
    · rw [if_pos hcond]
      rfl
    · rw [if_neg hcond]
      refine ih (i + 1) (by omega) ⟨j, ?_, hj2, hj3⟩
      rcases Nat.eq_or_lt_of_le hj1 with hji | hji
      · exact absurd (hji ▸ hj3) hcond
      · omega

/-- `get` misses exactly when `contains_key` is false; no invariant is
needed, both consult the same located slot. -/
theorem get_none_iff_contains {m : HashMap K V} {key : K} :
    HashMap.get keq hash m key = none ↔
      HashMap.containsKey keq hash m key = false := by
  rw [HashMap.get, HashMap.getKeyValue, HashMap.containsKey]
  cases hloc : m.nodes.location keq key (hash key) with
  | none => simp
  | some loc =>
    obtain ⟨k1, v1, d1, hslot1, -⟩ := locateGo_some hloc
    constructor
    · intro h
      have h2 : ((m.nodes.nodes.getD loc Slot.empty).keyValueRef).map
          Prod.snd = none := by simpa using h
      rw [hslot1] at h2
      exact absurd h2 (by simp [Slot.keyValueRef])
    · intro h
      exact absurd h (by simp)

/-- Overwrite: inserting over a present key returns the old value, keeps the
count, stores the new value, and keeps the originally stored key object. -/
theorem insert_overwrite (hK : KeyHyps keq hash) {m : HashMap K V}
    {key k0 : K} {v0 : V} (hInv : MapInv keq hash m) (value : V)
    (hgkv : HashMap.getKeyValue keq hash m key = some (k0, v0)) :
    (HashMap.insert keq hash m key value).1 = some v0 ∧
      (HashMap.insert keq hash m key value).2.len = m.len ∧
      HashMap.get keq hash (HashMap.insert keq hash m key value).2 key =
        some value ∧
      HashMap.getKeyValue keq hash (HashMap.insert keq hash m key value).2
        key = some (k0, value) := by
  obtain ⟨loc, d0, hloc, hslot, hkeq⟩ := getKeyValue_some_elim hgkv
  have hInv' := mapInv_insert hK hInv key value
  obtain ⟨hpath', hnd', -, -, -⟩ := hInv'
  rw [insert_present hloc] at hpath' hnd' ⊢
  rw [NodeStorage.replaceAt, replaceAtLocation_eq hslot] at hpath' hnd' ⊢
  have hplt : loc < m.nodes.nodes.length := lt_length_of_getD_occupied hslot
  have hslot' : (m.nodes.nodes.set loc
      (Slot.occupied k0 value d0)).getD loc Slot.empty =
      Slot.occupied k0 value d0 := getD_set_self hplt _
  refine ⟨rfl, rfl, ?_, ?_⟩
  · have := get_of_entry hK hpath' hnd' hslot' hkeq
    exact this
  · exact getKeyValue_of_entry hK hpath' hnd' hslot' hkeq

/-- `entry` branch equations. -/
theorem entry_eq_occupied {m : HashMap K V} {key : K} {loc : Nat}
    (hloc : m.nodes.location keq key (hash key) = some loc) :
    HashMap.entry keq hash m key = Entry.occupiedE key loc := by
  rw [HashMap.entry]
  simp only [hloc]

theorem entry_eq_vacant {m : HashMap K V} {key : K}
    (hloc : m.nodes.location keq key (hash key) = none) :
    HashMap.entry keq hash m key = Entry.vacantE key := by
  rw [HashMap.entry]
  simp only [hloc]

/-- `insert_and_get` mutates the map exactly as `insert` does. -/
theorem insertAndGet_snd (m : HashMap K V) (key : K) (value : V) :
    (HashMap.insertAndGet keq hash m key value).2 =
      (HashMap.insert keq hash m key value).2 := by
  rw [HashMap.insertAndGet, HashMap.insert]
  cases hloc : m.nodes.location keq key (hash key) with
  | none => rfl
  | some loc => rfl

/-- The `PartialEq` implementation decides exactly extensional equality:
equal lengths and every entry of the left map readable, `veq`-equal, in the
right one. -/
theorem beqMaps_iff (hK : KeyHyps keq hash) {veq : V → V → Bool}
    {m1 m2 : HashMap K V} (hInv1 : MapInv keq hash m1) :
    HashMap.beqMaps keq hash veq m1 m2 = true ↔
      (m1.len = m2.len ∧ ∀ k v, HashMap.get keq hash m1 k = some v →
        ∃ v', HashMap.get keq hash m2 k = some v' ∧ veq v v' = true) := by
  obtain ⟨hpath1, hnd1, -, -, -⟩ := hInv1
  rw [HashMap.beqMaps, iterYields_eq]
  by_cases hlen : m1.len = m2.len
  · rw [if_neg (by simpa using hlen)]
    rw [List.all_eq_true]
    constructor
    · intro hall
      refine ⟨hlen, ?_⟩
      intro k v hget
      have hget' : HashMap.get keq hash (⟨m1.nodes⟩ : HashMap K V) k =
          some v := hget
      obtain ⟨p, k0, d0, hslot, hkeq0⟩ := get_some_sound hget'
      have hmem : (k0, v) ∈ entryList m1.nodes.nodes :=
        mem_entryList.2 ⟨p, d0, hslot⟩
      have hone := hall (k0, v) hmem
      cases hget2 : HashMap.get keq hash m2 k0 with
      | none =>
        rw [hget2] at hone
        exact absurd hone (by simp)
      | some v' =>
        rw [hget2] at hone
        refine ⟨v', ?_, by simpa using hone⟩
        rw [← get_keq_congr hK hkeq0]
        exact hget2
    · rintro ⟨-, hget⟩
      intro kv hkv
      obtain ⟨k0, v0⟩ := kv
      obtain ⟨p, d, hslot⟩ := mem_entryList.1 hkv
      have hget1 : HashMap.get keq hash m1 k0 = some v0 :=
        get_of_entry hK hpath1 hnd1 hslot (hK.refl k0)
      obtain ⟨v', hg2, hveq⟩ := hget k0 v0 hget1
      rw [hg2]
      simpa using hveq
  · rw [if_pos (by simpa using hlen)]
    constructor
    · intro h
      exact absurd h (by simp)
    · rintro ⟨h, -⟩
      exact absurd h hlen

end Remaining

/-! ## The claims -/

section Claims

/-- C1: For every sequence of insert operations with pairwise-distinct keys,
starting from a fresh map of any positive backing size (`new()` is
`with_size(16)`), `get(k)` afterwards returns `Some` of the last value
inserted for `k`, for every key `k` in the sequence, regardless of the number
of inserts relative to the initial table size. -/
theorem C1_insert_sequence_roundtrip {K V : Type} {keq : K → K → Bool}
    {hash : K → Nat} (hK : KeyHyps keq hash) (size : Nat) (hs : 0 < size)
    (l : List (K × V))
    (hdist : List.Pairwise (fun a b : K × V => keq a.1 b.1 = false) l) :
    ∀ kv ∈ l,
      HashMap.get keq hash (insertAll keq hash (HashMap.withSize size) l)
        kv.1 = some kv.2 := by
  intro kv hkv
  exact get_insertAll_mem hK (mapInv_withSize size hs) hdist hkv

/-- C1 witness: four inserts into a backing of size 4 (threshold 3), forcing
a growth, still read back. -/
theorem C1_insert_sequence_roundtrip_witness :
    (0 < 4 ∧
      List.Pairwise (fun a b : Nat × Nat => natKeq a.1 b.1 = false)
        [(1, 10), (2, 20), (5, 50), (7, 70)]) ∧
    HashMap.get natKeq natHash
      (insertAll natKeq natHash (HashMap.withSize 4)
        [(1, 10), (2, 20), (5, 50), (7, 70)]) 5 = some 50 :=
  ⟨⟨by decide, by decide⟩,
    C1_insert_sequence_roundtrip natKeyHyps 4 (by decide)
      [(1, 10), (2, 20), (5, 50), (7, 70)] (by decide) (5, 50) (by decide)⟩

/-- C2: For every map containing key `k` with value `v1` (stored under the
key object `k0`), `insert(k, v2)` returns `Some v1`, leaves `len()`
unchanged, makes `get(k)` return `Some v2`, and keeps the originally stored
key `k0` as the stored key identity: the incoming equal key is the one
discarded, not the stored one. -/
theorem C2_overwrite_semantics {K V : Type} {keq : K → K → Bool}
    {hash : K → Nat} (hK : KeyHyps keq hash) {m : HashMap K V} {k k0 : K}
    {v1 : V} (hInv : MapInv keq hash m)
    (hstored : HashMap.getKeyValue keq hash m k = some (k0, v1)) (v2 : V) :
    (HashMap.insert keq hash m k v2).1 = some v1 ∧
      (HashMap.insert keq hash m k v2).2.len = m.len ∧
      HashMap.get keq hash (HashMap.insert keq hash m k v2).2 k = some v2 ∧
      HashMap.getKeyValue keq hash (HashMap.insert keq hash m k v2).2 k =
        some (k0, v2) :=
  insert_overwrite hK hInv v2 hstored

/-- C2 witness: the stored key object `(1, 0)` and the incoming equal key
`(1, 99)` differ in their identity tag; after the overwrite the stored key
is still `(1, 0)`. -/
theorem C2_overwrite_semantics_witness :
    (MapInv pairKeq pairHash pm1 ∧
      HashMap.getKeyValue pairKeq pairHash pm1 (1, 99) =
        some ((1, 0), 10)) ∧
    ((HashMap.insert pairKeq pairHash pm1 (1, 99) 20).1 = some 10 ∧
      (HashMap.insert pairKeq pairHash pm1 (1, 99) 20).2.len = pm1.len ∧
      HashMap.get pairKeq pairHash
        (HashMap.insert pairKeq pairHash pm1 (1, 99) 20).2 (1, 99) =
        some 20 ∧
      HashMap.getKeyValue pairKeq pairHash
        (HashMap.insert pairKeq pairHash pm1 (1, 99) 20).2 (1, 99) =
        some ((1, 0), 20)) :=
  ⟨⟨by decide, by decide⟩,
    C2_overwrite_semantics pairKeyHyps (by decide) (by decide) 20⟩

/-- C3: Removing an absent key returns `None` and leaves the whole map state
unchanged; removing a present key with value `v` returns `Some v`, decreases
`len()` by exactly one, and makes `get(k)` return `None` afterwards. -/
theorem C3_remove_semantics {K V : Type} {keq : K → K → Bool}
    {hash : K → Nat} (hK : KeyHyps keq hash) {m : HashMap K V}
    (hInv : MapInv keq hash m) (k : K) :
    (HashMap.get keq hash m k = none →
      HashMap.remove keq hash m k = (none, m)) ∧
    (∀ v, HashMap.get keq hash m k = some v →
      (HashMap.remove keq hash m k).1 = some v ∧
        (HashMap.remove keq hash m k).2.len + 1 = m.len ∧
        HashMap.get keq hash (HashMap.remove keq hash m k).2 k = none) := by
  constructor
  · intro habs
    have hcont := get_none_iff_contains.1 habs
    rw [HashMap.containsKey] at hcont
    have hloc : m.nodes.location keq k (hash k) = none :=
      Option.not_isSome_iff_eq_none.1 (by simp [hcont])
    exact remove_none hloc
  · intro v hv
    obtain ⟨h1, h2, h3, -⟩ := remove_present_spec hK hInv hv
    exact ⟨h1, h2, h3⟩

/-- C3 witness: removing absent key 9 from a three-entry map is the
identity; removing present key 5 returns its value 50, drops the length from
3 to 2, and key 5 then reads as absent. -/
theorem C3_remove_semantics_witness :
    (MapInv natKeq natHash wm3 ∧ HashMap.get natKeq natHash wm3 9 = none ∧
      HashMap.get natKeq natHash wm3 5 = some 50) ∧
    HashMap.remove natKeq natHash wm3 9 = (none, wm3) ∧
    ((HashMap.remove natKeq natHash wm3 5).1 = some 50 ∧
      (HashMap.remove natKeq natHash wm3 5).2.len + 1 = wm3.len ∧
      HashMap.get natKeq natHash (HashMap.remove natKeq natHash wm3 5).2 5 =
        none) :=
  ⟨⟨by decide, by decide, by decide⟩,
    (C3_remove_semantics natKeyHyps (by decide) 9).1 (by decide),
    (C3_remove_semantics natKeyHyps (by decide) 5).2 50 (by decide)⟩

/-- C4 (corrected): `entry(key)` performs exactly one hash and one Locate
and returns Occupied exactly when the key is present; `or_insert(v)` on an
Occupied entry performs no further hash or Locate, leaves the map (and thus
the stored value) unchanged and returns the stored value; on a Vacant entry
it inserts `v` so that `get(key)` afterwards returns `Some v` — but, against
the claim, the Vacant arm DOES perform a second hash and Locate, because
`VacantEntry::insert` calls `HashMap::insert_and_get`, which re-hashes the
key and calls `location` again. -/
theorem C4_entry_api {K V : Type} {keq : K → K → Bool} {hash : K → Nat}
    (hK : KeyHyps keq hash) {m : HashMap K V} (hInv : MapInv keq hash m)
    (key : K) (v : V) :
    (HashMap.entryTr keq hash m key).2 =
        [HmEvent.hashKey, HmEvent.locate] ∧
    ((∃ loc, (HashMap.entryTr keq hash m key).1 =
        Entry.occupiedE key loc) ↔
      HashMap.containsKey keq hash m key = true) ∧
    (∀ loc, (HashMap.entryTr keq hash m key).1 = Entry.occupiedE key loc →
      Entry.orInsertTr keq hash m (Entry.occupiedE key loc) v =
        ((HashMap.get keq hash m key, m), [])) ∧
    ((HashMap.entryTr keq hash m key).1 = Entry.vacantE key →
      (Entry.orInsertTr keq hash m (Entry.vacantE key) v).2 =
          [HmEvent.hashKey, HmEvent.locate] ∧
        (Entry.orInsertTr keq hash m (Entry.vacantE key) v).1.2 =
          (HashMap.insert keq hash m key v).2 ∧
        HashMap.get keq hash
          (Entry.orInsertTr keq hash m (Entry.vacantE key) v).1.2 key =
          some v) := by
  refine ⟨rfl, ?_, ?_, ?_⟩
  · show (∃ loc, HashMap.entry keq hash m key = Entry.occupiedE key loc) ↔ _
    rw [HashMap.containsKey]
    cases hloc : m.nodes.location keq key (hash key) with
    | some loc =>
      simp only [Option.isSome_some]
      exact iff_of_true ⟨loc, entry_eq_occupied hloc⟩ trivial
    | none =>
      simp only [Option.isSome_none]
      constructor
      · rintro ⟨loc, hocc⟩
        rw [entry_eq_vacant hloc] at hocc
        exact absurd hocc (by simp)
      · intro h
        exact absurd h (by simp)
  · intro loc hocc
    have hocc3 : HashMap.entry keq hash m key = Entry.occupiedE key loc :=
      hocc
    cases hloc : m.nodes.location keq key (hash key) with
    | none =>
      rw [entry_eq_vacant hloc] at hocc3
      exact absurd hocc3 (by simp)
    | some loc0 =>
      rw [entry_eq_occupied hloc] at hocc3
      injection hocc3 with h1 h2
      subst h2
      simp only [Entry.orInsertTr, HashMap.get, HashMap.getKeyValue, hloc]
  · intro hvac
    refine ⟨rfl, ?_, ?_⟩
    · exact insertAndGet_snd m key v
    · show HashMap.get keq hash
        (HashMap.insertAndGet keq hash m key v).2 key = some v
      rw [insertAndGet_snd m key v, get_insert hK hInv key v key,
        if_pos (hK.refl key)]

/-- C4 counterexample to the original claim: `or_insert` on the Vacant entry
returned by `entry` on an absent key performs a second Locate. -/
theorem C4_entry_api_counterexample :
    HmEvent.locate ∈
      (Entry.orInsertTr natKeq natHash wm0
        (HashMap.entry natKeq natHash wm0 7) 40).2 := by
  decide

/-- C4 witness: on the two-entry map `wm2`, `entry 1` is Occupied (key 1 is
present) and `or_insert` there is silent; `entry 7` is Vacant and its
`or_insert` re-hashes, re-locates, inserts and makes key 7 readable. -/
theorem C4_entry_api_witness :
    (MapInv natKeq natHash wm2 ∧ MapInv natKeq natHash wm0) ∧
    ((HashMap.entryTr natKeq natHash wm2 1).2 =
        [HmEvent.hashKey, HmEvent.locate] ∧
      ((∃ loc, (HashMap.entryTr natKeq natHash wm2 1).1 =
          Entry.occupiedE 1 loc) ↔
        HashMap.containsKey natKeq natHash wm2 1 = true) ∧
      (∀ loc, (HashMap.entryTr natKeq natHash wm2 1).1 =
          Entry.occupiedE 1 loc →
        Entry.orInsertTr natKeq natHash wm2 (Entry.occupiedE 1 loc) 99 =
          ((HashMap.get natKeq natHash wm2 1, wm2), [])) ∧
      ((HashMap.entryTr natKeq natHash wm2 1).1 = Entry.vacantE 1 →
        (Entry.orInsertTr natKeq natHash wm2 (Entry.vacantE 1) 99).2 =
            [HmEvent.hashKey, HmEvent.locate] ∧
          (Entry.orInsertTr natKeq natHash wm2 (Entry.vacantE 1) 99).1.2 =
            (HashMap.insert natKeq natHash wm2 1 99).2 ∧
          HashMap.get natKeq natHash
            (Entry.orInsertTr natKeq natHash wm2
              (Entry.vacantE 1) 99).1.2 1 = some 99)) ∧
    ((HashMap.entryTr natKeq natHash wm0 7).1 = Entry.vacantE 7 →
      (Entry.orInsertTr natKeq natHash wm0 (Entry.vacantE 7) 40).2 =
          [HmEvent.hashKey, HmEvent.locate] ∧
        (Entry.orInsertTr natKeq natHash wm0 (Entry.vacantE 7) 40).1.2 =
          (HashMap.insert natKeq natHash wm0 7 40).2 ∧
        HashMap.get natKeq natHash
          (Entry.orInsertTr natKeq natHash wm0
            (Entry.vacantE 7) 40).1.2 7 = some 40) :=
  ⟨⟨by decide, by decide⟩,
    C4_entry_api natKeyHyps (by decide) 1 99,
    (C4_entry_api natKeyHyps (by decide) 7 40).2.2.2⟩

/-- C5: inside `insert`, the backing size doubles exactly when the key is
new and the count has reached the load threshold, and is otherwise
unchanged; under the load invariant "at the threshold" is the same as
"capacity ≤ len"; `capacity()` never decreases across any sequence of
inserts and removes; and a growing rebuild loses no entry: `get` is
unchanged by `resize` to any size at least the current one. -/
theorem C5_resize_trigger {K V : Type} {keq : K → K → Bool}
    {hash : K → Nat} (hK : KeyHyps keq hash) {m : HashMap K V}
    (hInv : MapInv keq hash m) (key : K) (value : V)
    (ops : List (MapOp K V)) {newSize : Nat}
    (hge : m.backingVecSize ≤ newSize) :
    ((HashMap.insert keq hash m key value).2.backingVecSize =
      if m.nodes.location keq key (hash key) = none ∧ m.capacity ≤ m.len
      then m.backingVecSize * 2 else m.backingVecSize) ∧
    (m.capacity ≤ m.len ↔ m.len = m.capacity) ∧
    m.capacity ≤ (applyOps keq hash m ops).capacity ∧
    (∀ k, HashMap.get keq hash (HashMap.resize hash m newSize) k =
      HashMap.get keq hash m k) := by
  have hload := hInv.2.2.2.1
  have hn := hInv.2.2.2.2
  refine ⟨?_, ?_, (applyOps_backing_mono m ops).2, ?_⟩
  · rw [insert_backing]
    by_cases h : m.nodes.location keq key (hash key) = none ∧
        m.capacity ≤ m.len
    · rw [if_pos ⟨h.1, h.2, hn⟩, if_pos h]
      rfl
    · rw [if_neg (fun hc => h ⟨hc.1, hc.2.1⟩), if_neg h]
      rfl
  · exact ⟨fun h => Nat.le_antisymm hload h, fun h => Nat.le_of_eq h.symm⟩
  · intro k
    exact get_resize hK hInv hge k

/-- C5 witness: `wm3` sits exactly at its threshold (len 3, capacity 3);
inserting the fresh key 7 doubles the backing from 4 to 8, the mixed
insert/remove sequence keeps capacity non-decreasing, and a resize to 8
preserves every lookup. -/
theorem C5_resize_trigger_witness :
    (MapInv natKeq natHash wm3 ∧ wm3.backingVecSize ≤ 8) ∧
    (((HashMap.insert natKeq natHash wm3 7 70).2.backingVecSize =
      if wm3.nodes.location natKeq 7 (natHash 7) = none ∧
          wm3.capacity ≤ wm3.len
      then wm3.backingVecSize * 2 else wm3.backingVecSize) ∧
    (wm3.capacity ≤ wm3.len ↔ wm3.len = wm3.capacity) ∧
    wm3.capacity ≤
      (applyOps natKeq natHash wm3
        [MapOp.ins 7 70, MapOp.rem 1, MapOp.ins 9 90]).capacity ∧
    (∀ k, HashMap.get natKeq natHash (HashMap.resize natHash wm3 8) k =
      HashMap.get natKeq natHash wm3 k)) :=
  ⟨⟨by decide, by decide⟩,
    C5_resize_trigger natKeyHyps (by decide) 7 70
      [MapOp.ins 7 70, MapOp.rem 1, MapOp.ins 9 90] (by decide)⟩

/-- C6: whenever some power-of-two size below `2^32` fits (its threshold
strictly exceeds the requested capacity), `with_capacity cap` succeeds and
selects the smallest power-of-two backing size whose 85%-threshold strictly
exceeds `cap`; the resulting empty map can hold at least `cap` elements
before resizing, since `cap < capacity()`. -/
theorem C6_with_capacity_selects {K V : Type} (cap : Nat)
    (hfit : cap < numberBeforeResize (2 ^ 31)) :
    ∃ m : HashMap K V, HashMap.withCapacity cap = some m ∧
      (∃ e, m.backingVecSize = 2 ^ e ∧
        cap < numberBeforeResize (2 ^ e) ∧
        ∀ j, j < e → numberBeforeResize (2 ^ j) ≤ cap) ∧
      cap < m.capacity ∧ m.len = 0 := by
  have hsome : (HashMap.withCapacitySizeGo cap 0).isSome = true :=
    withCapacitySizeGo_isSome 32 0 rfl
      ⟨31, Nat.zero_le _, by omega, hfit⟩
  cases hgo : HashMap.withCapacitySizeGo cap 0 with
  | none => rw [hgo] at hsome; exact absurd hsome (by simp)
  | some s =>
    obtain ⟨e, -, -, hs, hthr, hmin⟩ :=
      withCapacitySizeGo_some 32 0 s rfl hgo
    refine ⟨(HashMap.withSize s : HashMap K V), ?_, ⟨e, ?_, hthr, ?_⟩,
      ?_, rfl⟩
    · rw [HashMap.withCapacity, hgo]
      rfl
    · show (List.replicate s (Slot.empty : Slot K V)).length = 2 ^ e
      simpa using hs
    · intro j hj
      exact hmin j (Nat.zero_le _) hj
    · show cap < numberBeforeResize
        (List.replicate s (Slot.empty : Slot K V)).length
      rw [List.length_replicate, hs]
      exact hthr

/-- C6 witness: requesting capacity 5 selects backing size 8, whose
threshold 6 exceeds 5 while size 4 (threshold 3) does not. -/
theorem C6_with_capacity_selects_witness :
    5 < numberBeforeResize (2 ^ 31) ∧
    (∃ m : HashMap Nat Nat, HashMap.withCapacity 5 = some m ∧
      (∃ e, m.backingVecSize = 2 ^ e ∧
        5 < numberBeforeResize (2 ^ e) ∧
        ∀ j, j < e → numberBeforeResize (2 ^ j) ≤ 5) ∧
      5 < m.capacity ∧ m.len = 0) :=
  ⟨by decide, C6_with_capacity_selects 5 (by decide)⟩

/-- C7: map equality is `len()` equality plus: every key of the left map
reaches, via `get` on the right map, an equal value; maps of different
lengths are never equal; and equality is insensitive to insertion order
and to the internal backing capacity: the same distinct pairs inserted in
any order into fresh maps of any two positive sizes compare equal. -/
theorem C7_map_equality {K V : Type} {keq : K → K → Bool}
    {hash : K → Nat} (hK : KeyHyps keq hash) (veq : V → V → Bool)
    {m1 m2 : HashMap K V} (hInv1 : MapInv keq hash m1)
    (hveq : ∀ v, veq v v = true) {s1 s2 : Nat} (hs1 : 0 < s1)
    (hs2 : 0 < s2) {l1 l2 : List (K × V)} (hperm : List.Perm l1 l2)
    (hdist : List.Pairwise (fun a b : K × V => keq a.1 b.1 = false) l1) :
    (HashMap.beqMaps keq hash veq m1 m2 = true ↔
      (m1.len = m2.len ∧ ∀ k v, HashMap.get keq hash m1 k = some v →
        ∃ v', HashMap.get keq hash m2 k = some v' ∧ veq v v' = true)) ∧
    (m1.len ≠ m2.len → HashMap.beqMaps keq hash veq m1 m2 = false) ∧
    HashMap.beqMaps keq hash veq
      (insertAll keq hash (HashMap.withSize s1) l1)
      (insertAll keq hash (HashMap.withSize s2) l2) = true := by
  refine ⟨beqMaps_iff hK hInv1, ?_, ?_⟩
  · intro hne
    rw [HashMap.beqMaps, if_pos hne]
  · have hdist2 : List.Pairwise
        (fun a b : K × V => keq a.1 b.1 = false) l2 := by
      refine (List.Perm.pairwise_iff ?_ hperm).1 hdist
      intro a b hab
      cases hba : keq b.1 a.1 with
      | false => rfl
      | true => rw [hK.symm _ _ hba] at hab; exact absurd hab (by simp)
    have hInvA := mapInv_insertAll hK
      (mapInv_withSize s1 hs1 : MapInv keq hash
        (HashMap.withSize s1 : HashMap K V)) l1
    have hInvB := mapInv_insertAll hK
      (mapInv_withSize s2 hs2 : MapInv keq hash
        (HashMap.withSize s2 : HashMap K V)) l2
    have hEA : List.Perm
        (entryList (insertAll keq hash (HashMap.withSize s1)
          l1).nodes.nodes) l1 := by
      have h := entryList_insertAll hK
        (mapInv_withSize s1 hs1 : MapInv keq hash
          (HashMap.withSize s1 : HashMap K V)) hdist
        (fun kv _ => get_withSize_none s1 kv.1)
      have hz : entryList
          ((HashMap.withSize s1 : HashMap K V)).nodes.nodes = [] :=
        entryList_replicate
      rw [hz, List.append_nil] at h
      exact h
    have hEB : List.Perm
        (entryList (insertAll keq hash (HashMap.withSize s2)
          l2).nodes.nodes) l2 := by
      have h := entryList_insertAll hK
        (mapInv_withSize s2 hs2 : MapInv keq hash
          (HashMap.withSize s2 : HashMap K V)) hdist2
        (fun kv _ => get_withSize_none s2 kv.1)
      have hz : entryList
          ((HashMap.withSize s2 : HashMap K V)).nodes.nodes = [] :=
        entryList_replicate
      rw [hz, List.append_nil] at h
      exact h
    refine (beqMaps_iff hK hInvA).2 ⟨?_, ?_⟩
    · show (insertAll keq hash (HashMap.withSize s1)
          l1).nodes.numberOfItems =
        (insertAll keq hash (HashMap.withSize s2) l2).nodes.numberOfItems
      rw [hInvA.2.2.1, hInvB.2.2.1, List.Perm.length_eq hEA,
        List.Perm.length_eq hEB, List.Perm.length_eq hperm]
    · intro k v hv
      obtain ⟨p, k0, d0, hslot, hkeq⟩ := get_some_sound hv
      have hmem : (k0, v) ∈
          entryList (insertAll keq hash (HashMap.withSize s2)
            l2).nodes.nodes :=
        hEB.symm.subset (hperm.subset (hEA.subset
          (mem_entryList.2 ⟨p, d0, hslot⟩)))
      obtain ⟨q, d1, hslot2⟩ := mem_entryList.1 hmem
      exact ⟨v, get_of_entry hK hInvB.1 hInvB.2.1 hslot2 hkeq, hveq v⟩

/-- C7 witness: `wm2` (keys 1, 2 in a size-4 table) compares equal to the
reverse-order build in a size-8 table; the iff and the length-mismatch
consequences are instantiated at `wm2` against `wm3`. -/
theorem C7_map_equality_witness :
    (MapInv natKeq natHash wm2 ∧ (∀ v : Nat, natVeq v v = true) ∧
      0 < 4 ∧ 0 < 8 ∧
      List.Perm [(1, 10), (2, 20)] [(2, 20), (1, 10)] ∧
      List.Pairwise (fun a b : Nat × Nat => natKeq a.1 b.1 = false)
        [(1, 10), (2, 20)]) ∧
    ((HashMap.beqMaps natKeq natHash natVeq wm2 wm3 = true ↔
      (wm2.len = wm3.len ∧ ∀ k v, HashMap.get natKeq natHash wm2 k =
          some v →
        ∃ v', HashMap.get natKeq natHash wm3 k = some v' ∧
          natVeq v v' = true)) ∧
    (wm2.len ≠ wm3.len →
      HashMap.beqMaps natKeq natHash natVeq wm2 wm3 = false) ∧
    HashMap.beqMaps natKeq natHash natVeq
      (insertAll natKeq natHash (HashMap.withSize 4) [(1, 10), (2, 20)])
      (insertAll natKeq natHash (HashMap.withSize 8) [(2, 20), (1, 10)]) =
      true) :=
  ⟨⟨by decide, fun v => by simp [natVeq], by decide, by decide,
      List.Perm.swap _ _ _, by decide⟩,
    C7_map_equality natKeyHyps natVeq (by decide)
      (fun v => by simp [natVeq]) (by decide) (by decide)
      (List.Perm.swap _ _ _) (by decide)⟩

/-- C8: at every reachable borrowing-iterator state (any number of `next`
calls from a fresh cursor, no interleaved mutation), `size_hint` declares
`len() - already_yielded` remaining, which equals exactly the number of
items the iterator will still yield, with matching upper bound; the full
scan yields the occupied slots in increasing position order (that is
exactly `entryList`); and the owning iterator's `size_hint` is exact in the
same way. -/
theorem C8_iterator_size_hint {K V : Type} {keq : K → K → Bool}
    {hash : K → Nat} {m : HashMap K V} (hInv : MapInv keq hash m)
    (j : Nat) :
    (m.iterSizeHint (m.iterAdvance HashMap.iterStart j)).1 =
        m.len - (m.iterAdvance HashMap.iterStart j).numFound ∧
    (m.iterSizeHint (m.iterAdvance HashMap.iterStart j)).1 =
      (HashMap.iterForceGo m (m.iterAdvance HashMap.iterStart j)
        m.nodes.nodes.length).length ∧
    (m.iterSizeHint (m.iterAdvance HashMap.iterStart j)).2 =
      some (m.iterSizeHint (m.iterAdvance HashMap.iterStart j)).1 ∧
    m.iterYields = entryList m.nodes.nodes ∧
    (HashMap.iterOwnedSizeHint
        (HashMap.iterOwnedAdvance (HashMap.iterOwnedStart m) j)).1 =
      (HashMap.iterOwnedForceGo
        (HashMap.iterOwnedAdvance (HashMap.iterOwnedStart m) j)
        m.nodes.nodes.length).length ∧
    (HashMap.iterOwnedSizeHint
        (HashMap.iterOwnedAdvance (HashMap.iterOwnedStart m) j)).2 =
      some (HashMap.iterOwnedSizeHint
        (HashMap.iterOwnedAdvance (HashMap.iterOwnedStart m) j)).1 := by
  have hcnt : m.nodes.numberOfItems = (entryList m.nodes.nodes).length :=
    hInv.2.2.1
  obtain ⟨hb1, hb2⟩ := iterSizeHint_exact hcnt j
  obtain ⟨ho1, ho2⟩ := iterOwnedSizeHint_exact hcnt j
  exact ⟨rfl, hb1, hb2, iterYields_eq m, ho1, ho2⟩

/-- C8 witness: on the three-entry map `wm3` after two `next` calls, both
iterators still declare exactly one remaining item. -/
theorem C8_iterator_size_hint_witness :
    MapInv natKeq natHash wm3 ∧
    ((wm3.iterSizeHint (wm3.iterAdvance HashMap.iterStart 2)).1 =
        wm3.len - (wm3.iterAdvance HashMap.iterStart 2).numFound ∧
    (wm3.iterSizeHint (wm3.iterAdvance HashMap.iterStart 2)).1 =
      (HashMap.iterForceGo wm3 (wm3.iterAdvance HashMap.iterStart 2)
        wm3.nodes.nodes.length).length ∧
    (wm3.iterSizeHint (wm3.iterAdvance HashMap.iterStart 2)).2 =
      some (wm3.iterSizeHint (wm3.iterAdvance HashMap.iterStart 2)).1 ∧
    wm3.iterYields = entryList wm3.nodes.nodes ∧
    (HashMap.iterOwnedSizeHint
        (HashMap.iterOwnedAdvance (HashMap.iterOwnedStart wm3) 2)).1 =
      (HashMap.iterOwnedForceGo
        (HashMap.iterOwnedAdvance (HashMap.iterOwnedStart wm3) 2)
        wm3.nodes.nodes.length).length ∧
    (HashMap.iterOwnedSizeHint
        (HashMap.iterOwnedAdvance (HashMap.iterOwnedStart wm3) 2)).2 =
      some (HashMap.iterOwnedSizeHint
        (HashMap.iterOwnedAdvance (HashMap.iterOwnedStart wm3) 2)).1) :=
  ⟨by decide, @C8_iterator_size_hint Nat Nat natKeq natHash wm3 (by decide) 2⟩

/-- C9: indexing errors exactly when the key is absent and returns the
stored value exactly when present; absence surfaces through the other
lookup paths as signal values, never as an error: `get` and
`get_key_value` return `None` and `remove` returns `None` leaving the map
untouched. -/
theorem C9_index_panics {K V : Type} (keq : K → K → Bool)
    (hash : K → Nat) (m : HashMap K V) (key : K) :
    (HashMap.indexGet keq hash m key = Except.error () ↔
      HashMap.containsKey keq hash m key = false) ∧
    (∀ v, HashMap.indexGet keq hash m key = Except.ok v ↔
      HashMap.get keq hash m key = some v) ∧
    (HashMap.containsKey keq hash m key = false →
      HashMap.get keq hash m key = none ∧
        HashMap.getKeyValue keq hash m key = none ∧
        HashMap.remove keq hash m key = (none, m)) := by
  refine ⟨?_, ?_, ?_⟩
  · rw [HashMap.indexGet]
    cases hg : HashMap.get keq hash m key with
    | none =>
      exact iff_of_true rfl (get_none_iff_contains.1 hg)
    | some v =>
      refine iff_of_false (by simp) fun hc => ?_
      rw [get_none_iff_contains.2 hc] at hg
      exact absurd hg (by simp)
  · intro v
    rw [HashMap.indexGet]
    cases hg : HashMap.get keq hash m key with
    | none => simp
    | some w => simp
  · intro hc
    have hg : HashMap.get keq hash m key = none :=
      get_none_iff_contains.2 hc
    have hgkv : HashMap.getKeyValue keq hash m key = none :=
      Option.map_eq_none'.1 hg
    have hloc : m.nodes.location keq key (hash key) = none := by
      rw [HashMap.containsKey] at hc
      exact Option.not_isSome_iff_eq_none.1 (by simp [hc])
    exact ⟨hg, hgkv, remove_none hloc⟩

/-- C9 witness: on `wm2`, key 9 is absent so indexing errors while the
other lookups signal; key 2 is present and indexing returns 20. -/
theorem C9_index_panics_witness :
    ((HashMap.indexGet natKeq natHash wm2 9 = Except.error () ↔
      HashMap.containsKey natKeq natHash wm2 9 = false) ∧
    (∀ v, HashMap.indexGet natKeq natHash wm2 9 = Except.ok v ↔
      HashMap.get natKeq natHash wm2 9 = some v) ∧
    (HashMap.containsKey natKeq natHash wm2 9 = false →
      HashMap.get natKeq natHash wm2 9 = none ∧
        HashMap.getKeyValue natKeq natHash wm2 9 = none ∧
        HashMap.remove natKeq natHash wm2 9 = (none, wm2))) :=
  C9_index_panics natKeq natHash wm2 9

/-- C10: inserting over a key that is already present never reaches the
growth check: the backing size and `capacity()` are unchanged, with no
side condition relating `len()` to the threshold — in particular even when
`len()` equals `capacity()`; the same holds for `insert_and_get`. -/
theorem C10_present_insert_no_resize {K V : Type} {keq : K → K → Bool}
    {hash : K → Nat} {m : HashMap K V} {key : K}
    (hpres : HashMap.containsKey keq hash m key = true) (value : V) :
    (HashMap.insert keq hash m key value).2.backingVecSize =
        m.backingVecSize ∧
      (HashMap.insert keq hash m key value).2.capacity = m.capacity ∧
      (HashMap.insertAndGet keq hash m key value).2.backingVecSize =
        m.backingVecSize := by
  rw [HashMap.containsKey] at hpres
  obtain ⟨loc, hloc⟩ := Option.isSome_iff_exists.1 hpres
  have hb : (HashMap.insert keq hash m key value).2.backingVecSize =
      m.backingVecSize := by
    rw [insert_backing, if_neg (by simp [hloc])]
    rfl
  refine ⟨hb, congrArg numberBeforeResize hb, ?_⟩
  rw [insertAndGet_snd m key value]
  exact hb

/-- C10 witness: `wm3` is exactly at its threshold (len 3 = capacity 3),
yet overwriting the present key 2 keeps backing size 4 and capacity 3. -/
theorem C10_present_insert_no_resize_witness :
    (HashMap.containsKey natKeq natHash wm3 2 = true ∧
      wm3.len = wm3.capacity) ∧
    ((HashMap.insert natKeq natHash wm3 2 99).2.backingVecSize =
        wm3.backingVecSize ∧
      (HashMap.insert natKeq natHash wm3 2 99).2.capacity =
        wm3.capacity ∧
      (HashMap.insertAndGet natKeq natHash wm3 2 99).2.backingVecSize =
        wm3.backingVecSize) :=
  ⟨⟨by decide, by decide⟩,
    C10_present_insert_no_resize (by decide) 99⟩

end Claims

end AgbHashMap
